import Mathlib

/-!
# Verification of the `netrc` parser (gribouille/netrc)

Shallow embedding of `src/lex.rs` (the tokenizer) and `src/netrc.rs`
(the parser, the data model and the `Display` serializer) of the
`netrc` crate, together with theorems settling the frozen claims about
the specification.

Modelling choices:
* Rust strings are Lean `String`s; the tokenizer's character cursor
  (`Chars<'a>`) is the `List Char` of remaining input.
* `HashMap` is modelled as an association list whose `insert` replaces
  an existing key in place (keys stay unique), matching map semantics.
* The two parser loops of `Netrc::from_str` are fuel-indexed functions
  (`parseTopF`, `parseAttrsF`); `from_str` runs them with fuel
  `2 * length + 8`, which exceeds the number of loop iterations any
  input can cause (every iteration but finitely many consumes input).
* Rust `str::trim` (used on macro-body lines) is embedded as `trimL`
  over the Unicode `White_Space` character set.
-/

namespace NetrcModel

instance [DecidableEq ε] [DecidableEq α] : DecidableEq (Except ε α) := fun
  | .ok a, .ok b => decidable_of_iff (a = b) (by simp)
  | .ok _, .error _ => .isFalse (by simp)
  | .error _, .ok _ => .isFalse (by simp)
  | .error a, .error b => decidable_of_iff (a = b) (by simp)

/-- The whitespace set of `lex.rs` (`'\n' | '\t' | '\r' | ' '`). -/
def isWs (c : Char) : Bool := c = '\n' || c = '\t' || c = '\r' || c = ' '

/-- Rust's `char::is_whitespace`: the Unicode `White_Space` property
(U+0009–U+000D, U+0020, U+0085, U+00A0, U+1680, U+2000–U+200A,
U+2028, U+2029, U+202F, U+205F, U+3000).  Strictly larger than the
tokenizer's own whitespace set `isWs`. -/
def isRustWs (c : Char) : Bool :=
  c = '\t' || c = '\n' || c = '\x0B' || c = '\x0C' || c = '\r' || c = ' '
    || c = '\x85' || c = '\xA0' || decide (c.toNat = 0x1680)
    || (decide (0x2000 ≤ c.toNat) && decide (c.toNat ≤ 0x200A))
    || decide (c.toNat = 0x2028) || decide (c.toNat = 0x2029)
    || decide (c.toNat = 0x202F) || decide (c.toNat = 0x205F)
    || decide (c.toNat = 0x3000)

/-- Rust's `str::trim`: strip leading and trailing Unicode
whitespace. -/
def trimL (l : List Char) : List Char :=
  ((l.dropWhile isRustWs).reverse.dropWhile isRustWs).reverse

/-- Line-counter update of `Lex::read_char`: a consumed newline
increments `lineno`. -/
def bump (n : Nat) (c : Char) : Nat := if c = '\n' then n + 1 else n

/-- `Lex::read_line` (lex.rs 27–36): consume characters up to and
including the next `'\n'` (the newline is consumed but not returned),
bypassing `read_char`, hence never touching `lineno`.  Returns
(line characters, remaining input). -/
def readLineAux : List Char → List Char × List Char
  | [] => ([], [])
  | c :: cs =>
    if c = '\n' then ([], cs)
    else ((readLineAux cs).1.cons c, (readLineAux cs).2)

/-- The quoted-mode inner loop of `Lex::get_token` (lex.rs 51–63):
an unescaped `'"'` ends the token; a backslash escapes the next
character (or a space at end of input); end of input returns what
accumulated.  Arguments: lineno, accumulated token, remaining input. -/
def quotedLoop : Nat → List Char → List Char → List Char × Nat × List Char
  | n, acc, [] => (acc, n, [])
  | n, acc, c :: cs =>
    if c = '"' then (acc, n, cs)
    else if c = '\\' then
      match cs with
      | [] => (acc ++ [' '], n, [])
      | d :: ds => quotedLoop (bump n d) (acc ++ [d]) ds
    else quotedLoop (bump n c) (acc ++ [c]) cs

/-- The unquoted-mode inner loop of `Lex::get_token` (lex.rs 72–81):
whitespace ends the token (the terminator is consumed); a backslash
escapes the next character (or a space at end of input). -/
def unquotedLoop : Nat → List Char → List Char → List Char × Nat × List Char
  | n, acc, [] => (acc, n, [])
  | n, acc, c :: cs =>
    if isWs c then (acc, bump n c, cs)
    else if c = '\\' then
      match cs with
      | [] => (acc ++ [' '], n, [])
      | d :: ds => unquotedLoop (bump n d) (acc ++ [d]) ds
    else unquotedLoop n (acc ++ [c]) cs

/-- The outer loop of `Lex::get_token` (lex.rs 43–85), after the
pushback check: skip whitespace, then scan a quoted or unquoted token.
An initial backslash escapes the following character into the token
(or a space at end of input).  Returns (token, lineno, rest). -/
def tokenLoop : Nat → List Char → List Char × Nat × List Char
  | n, [] => ([], n, [])
  | n, c :: cs =>
    if isWs c then tokenLoop (bump n c) cs
    else if c = '"' then quotedLoop n [] cs
    else if c = '\\' then
      match cs with
      | [] => ([' '], n, [])
      | d :: ds => unquotedLoop (bump n d) [d] ds
    else unquotedLoop n [c] cs

/-- The tokenizer state of `lex.rs`: current line number (1-based),
remaining character stream, pushback queue. -/
structure Lex where
  lineno : Nat
  instream : List Char
  pushback : List String
deriving Repr, DecidableEq

/-- `Lex::new`: line 1, full input, empty pushback. -/
def Lex.new (s : String) : Lex := ⟨1, s.data, []⟩

/-- `Lex::get_token` (lex.rs 38–86): pop the pushback queue if
non-empty, else scan a token with `tokenLoop`. -/
def Lex.get_token : Lex → String × Lex
  | ⟨n, cs, t :: ts⟩ => (t, ⟨n, cs, ts⟩)
  | ⟨n, cs, []⟩ =>
    ((tokenLoop n cs).1.asString, ⟨(tokenLoop n cs).2.1, (tokenLoop n cs).2.2, []⟩)

/-- `Lex::read_line` lifted to the tokenizer state: the returned line
and the updated state (`lineno` unchanged — `read_line` bypasses
`read_char`). -/
def Lex.read_line (lx : Lex) : String × Lex :=
  ((readLineAux lx.instream).1.asString, { lx with instream := (readLineAux lx.instream).2 })

/-- `Lex::push_token` (lex.rs 88–90): append to the pushback queue. -/
def Lex.push_token (lx : Lex) (t : String) : Lex :=
  { lx with pushback := lx.pushback ++ [t] }

/-- `ParsingError` (netrc.rs 6–10). -/
structure ParsingError where
  lineno : Nat
  message : String
deriving Repr, DecidableEq

/-- `impl Display for ParsingError` (netrc.rs 12–16). -/
def ParsingError.display (e : ParsingError) : String :=
  "parsing error: " ++ e.message ++ " (line " ++ toString e.lineno ++ ")"

/-- `Authenticator` (netrc.rs 19–29). -/
structure Authenticator where
  login : String
  account : String
  password : String
deriving Repr, DecidableEq

/-- `Authenticator::new` (netrc.rs 33–39). -/
def Authenticator.new (login account password : String) : Authenticator :=
  ⟨login, account, password⟩

instance : Inhabited Authenticator := ⟨⟨"", "", ""⟩⟩

/-- `Authenticator::default`: all three fields empty. -/
def Authenticator.default : Authenticator := ⟨"", "", ""⟩

/-- Map insertion on an association list: replace the value of an
existing key in place, else append.  Models `HashMap::insert` (keys
stay unique; last write wins). -/
def insertAssoc (k : String) (v : α) : List (String × α) → List (String × α)
  | [] => [(k, v)]
  | (k', v') :: rest =>
    if k = k' then (k, v) :: rest else (k', v') :: insertAssoc k v rest

/-- `Netrc` (netrc.rs 43–50): host table and macro table. -/
structure Netrc where
  hosts : List (String × Authenticator)
  macros : List (String × List String)
deriving Repr, DecidableEq

instance : Inhabited Netrc := ⟨⟨[], []⟩⟩

/-- `Netrc::default`: both tables empty. -/
def Netrc.default : Netrc := ⟨[], []⟩

/-- The serialization of one host entry by `impl Display for Netrc`
(netrc.rs 55–61): `machine <host>`, an indented `login` line, an
`account` line only when the account is non-empty, and a `password`
line (the source writes two spaces after `account` and `password`). -/
def displayHost (host : String) (a : Authenticator) : String :=
  "machine " ++ host ++ "\n\tlogin " ++ a.login ++ "\n"
    ++ (if a.account = "" then "" else "\taccount  " ++ a.account ++ "\n")
    ++ "\tpassword  " ++ a.password ++ "\n"

/-- The macro-body lines as written by the `for line in lines` loop of
`impl Display for Netrc` (netrc.rs 64–66): each line followed by a
newline — no blank line is emitted after the body. -/
def macroLinesText : List String → String
  | [] => ""
  | l :: ls => l ++ "\n" ++ macroLinesText ls

/-- The serialization of one macro by `impl Display for Netrc`
(netrc.rs 62–67): `macdef <name>` then its lines. -/
def displayMacro (name : String) (lines : List String) : String :=
  "macdef " ++ name ++ "\n" ++ macroLinesText lines

/-- The host-table loop of `impl Display for Netrc` (netrc.rs 55–61). -/
def hostsText : List (String × Authenticator) → String
  | [] => ""
  | p :: hs => displayHost p.1 p.2 ++ hostsText hs

/-- The macro-table loop of `impl Display for Netrc` (netrc.rs 62–67). -/
def macrosText : List (String × List String) → String
  | [] => ""
  | q :: ms => displayMacro q.1 q.2 ++ macrosText ms

/-- `impl Display for Netrc` (netrc.rs 52–70): all host entries, then
all macros, in table order. -/
def Netrc.display (nrc : Netrc) : String :=
  hostsText nrc.hosts ++ macrosText nrc.macros

/-- The macro-body loop of `Netrc::from_str` (netrc.rs 106–113):
repeatedly `read_line`; stop before the first line that is empty after
trimming (or at end of input); keep each line trimmed, in order.
Fuel-indexed; `length + 1` fuel always suffices since every kept line
consumes at least one character.  Returns (lines, remaining input). -/
def macroLinesF : Nat → List Char → List String × List Char
  | 0, cs => ([], cs)
  | f + 1, cs =>
    let l := (readLineAux cs).1
    let rest := (readLineAux cs).2
    if trimL l = [] then ([], rest)
    else ((macroLinesF f rest).1.cons (trimL l).asString, (macroLinesF f rest).2)

mutual

/-- The top-level loop of `Netrc::from_str` (netrc.rs 79–165),
fuel-indexed (one fuel per loop iteration; `none` = fuel exhausted,
which `from_str`'s fuel choice makes unreachable).  An empty token
ends the parse; a token whose first character is `'#'` discards the
rest of the line only when the token is exactly `"#"` and no newline
was crossed while obtaining it; `machine`/`default` enter the
attribute loop; `macdef` reads the macro body; anything else is a
"bad toplevel token" error, and an empty entry name after `machine`
is a "missing ... name" error. -/
def parseTopF : Nat → Netrc → Lex → Option (Except ParsingError Netrc)
  | 0, _, _ => none
  | f + 1, res, lx =>
    let saved_lineno := lx.lineno
    let tt := lx.get_token.1
    let lx1 := lx.get_token.2
    if tt = "" then some (.ok res)
    else if tt.data.head? = some '#' then
      if lx1.lineno = saved_lineno ∧ tt.length = 1 then
        parseTopF f res (lx1.read_line).2
      else
        parseTopF f res lx1
    else if tt = "machine" then
      let entryname := lx1.get_token.1
      let lx2 := lx1.get_token.2
      if entryname = "" then
        some (.error ⟨lx2.lineno, "missing '" ++ tt ++ "' name"⟩)
      else
        parseAttrsF f res entryname Authenticator.default lx2
    else if tt = "default" then
      if "default" = "" then
        some (.error ⟨lx1.lineno, "missing '" ++ tt ++ "' name"⟩)
      else
        parseAttrsF f res "default" Authenticator.default lx1
    else if tt = "macdef" then
      let entryname := lx1.get_token.1
      let lx2 := lx1.get_token.2
      let v := (macroLinesF (lx2.instream.length + 1) lx2.instream).1
      let rest := (macroLinesF (lx2.instream.length + 1) lx2.instream).2
      parseTopF f { res with macros := insertAssoc entryname v res.macros }
        { lx2 with instream := rest }
    else
      some (.error ⟨lx1.lineno, "bad toplevel token '" ++ tt ++ "'"⟩)

/-- The attribute loop of `Netrc::from_str` (netrc.rs 133–164),
fuel-indexed.  A token starting with `'#'` discards the rest of the
line whenever no newline was crossed while obtaining it (no length
check here, unlike top level); an empty token or a top-level keyword
stores the entry and pushes the token back; `login`/`user`,
`account`, `password` read a value into the credential; anything
else is a "bad follower token" error. -/
def parseAttrsF : Nat → Netrc → String → Authenticator → Lex →
    Option (Except ParsingError Netrc)
  | 0, _, _, _, _ => none
  | f + 1, res, entryname, auth, lx =>
    let prev_lineno := lx.lineno
    let tt := lx.get_token.1
    let lx1 := lx.get_token.2
    if tt.data.head? = some '#' then
      if lx1.lineno = prev_lineno then
        parseAttrsF f res entryname auth (lx1.read_line).2
      else
        parseAttrsF f res entryname auth lx1
    else if tt = "" ∨ tt = "machine" ∨ tt = "default" ∨ tt = "macdef" then
      parseTopF f { res with hosts := insertAssoc entryname auth res.hosts }
        (lx1.push_token tt)
    else if tt = "login" ∨ tt = "user" then
      parseAttrsF f res entryname { auth with login := lx1.get_token.1 } lx1.get_token.2
    else if tt = "account" then
      parseAttrsF f res entryname { auth with account := lx1.get_token.1 } lx1.get_token.2
    else if tt = "password" then
      parseAttrsF f res entryname { auth with password := lx1.get_token.1 } lx1.get_token.2
    else
      some (.error ⟨lx1.lineno, "bad follower token '" ++ tt ++ "'"⟩)

end

/-- `Netrc::from_str` (netrc.rs 75–168).  Fuel `2 * length + 8`
bounds the iteration count of any run: every iteration consumes input
or pops the pushback queue, except at most a bounded number at end of
input.  (The `none` fallback is unreachable; theorems about symbolic
inputs establish the `some` value directly.) -/
def from_str (s : String) : Except ParsingError Netrc :=
  (parseTopF (2 * s.length + 8) Netrc.default (Lex.new s)).getD (.ok Netrc.default)

/-! ## Symbolic inputs

Vocabulary for reasoning about whole families of inputs: plain tokens
(non-empty, no whitespace, no backslash, no quote — the values the
spec calls "plain"), generic attribute lists, and rendering functions
that build input texts from them. -/

/-- A character that the tokenizer copies verbatim in unquoted mode
and that never acts as a separator, an escape or a quote. -/
def plainChar (c : Char) : Prop := isWs c = false ∧ c ≠ '\\' ∧ c ≠ '"'

instance (c : Char) : Decidable (plainChar c) := by unfold plainChar; infer_instance

/-- A plain value: non-empty and made of plain characters only
(so it needs no quoting and scans as one token). -/
def plainS (s : String) : Prop := s ≠ "" ∧ ∀ c ∈ s.data, plainChar c

instance (s : String) : Decidable (plainS s) := by unfold plainS; infer_instance

/-- A character that is plain even for Rust's Unicode whitespace set:
`str::trim` leaves it alone and it is no separator, escape or quote.
(`isRustWs` contains `isWs`, so this refines `plainChar`.) -/
def plainRustChar (c : Char) : Prop := isRustWs c = false ∧ c ≠ '\\' ∧ c ≠ '"'

instance (c : Char) : Decidable (plainRustChar c) := by unfold plainRustChar; infer_instance

/-- A plain value containing no Unicode whitespace at all: trimming it
is the identity and it never reads as a blank line. -/
def plainRustS (s : String) : Prop := s ≠ "" ∧ ∀ c ∈ s.data, plainRustChar c

instance (s : String) : Decidable (plainRustS s) := by unfold plainRustS; infer_instance

/-- A whitespace-only character list. -/
def wsOnly (l : List Char) : Prop := ∀ c ∈ l, isWs c = true

instance (l : List Char) : Decidable (wsOnly l) := by unfold wsOnly; infer_instance

/-- `bump` folded over a consumed character list. -/
def bumps (n : Nat) (l : List Char) : Nat := l.foldl bump n

/-- The attribute keywords of the attribute loop. -/
def isAttrKw (k : String) : Prop :=
  k = "login" ∨ k = "user" ∨ k = "account" ∨ k = "password"

instance (k : String) : Decidable (isAttrKw k) := by unfold isAttrKw; infer_instance

/-- The effect of one attribute pair (keyword, value) on the
credential, as the attribute loop performs it. -/
def applyAttr (a : Authenticator) (p : String × String) : Authenticator :=
  if p.1 = "login" ∨ p.1 = "user" then { a with login := p.2 }
  else if p.1 = "account" then { a with account := p.2 }
  else { a with password := p.2 }

/-- A well-formed attribute list: recognized keywords, plain values. -/
def attrsOk (attrs : List (String × String)) : Prop :=
  ∀ p ∈ attrs, isAttrKw p.1 ∧ plainS p.2

instance (attrs : List (String × String)) : Decidable (attrsOk attrs) := by
  unfold attrsOk; infer_instance

/-- Text of an attribute list: `kw v kw v … ` (one space after each
token) followed by a continuation. -/
def renderAttrs : List (String × String) → List Char → List Char
  | [], suffix => suffix
  | (k, v) :: rest, suffix =>
    k.data ++ (' ' :: (v.data ++ (' ' :: renderAttrs rest suffix)))

/-- Text of a `machine` block: `machine <name> <attrs>` followed by a
continuation. -/
def renderMachine (name : String) (attrs : List (String × String))
    (suffix : List Char) : List Char :=
  "machine".data ++ (' ' :: (name.data ++ (' ' :: renderAttrs attrs suffix)))

/-- Text of a `default` block followed by a continuation. -/
def renderDefault (attrs : List (String × String)) (suffix : List Char) : List Char :=
  "default".data ++ (' ' :: renderAttrs attrs suffix)

/-- A sequence of `machine` blocks, one after the other. -/
def renderMachines : List (String × List (String × String)) → List Char
  | [] => []
  | b :: bs => renderMachine b.1 b.2 (renderMachines bs)

/-- Which credential field an attribute keyword targets
(`login` and `user` target the same field). -/
def fieldOf (kw : String) : Nat :=
  if kw = "login" ∨ kw = "user" then 0 else if kw = "account" then 1 else 2

/-- The shape every error of `from_str` has: one of the three message
formats, with a positive line counter. -/
def errShape (e : ParsingError) : Prop :=
  (∃ t, e.message = "bad toplevel token '" ++ t ++ "'"
      ∨ e.message = "bad follower token '" ++ t ++ "'"
      ∨ e.message = "missing '" ++ t ++ "' name")
  ∧ 1 ≤ e.lineno

/-- The character stream of a serialized host entry after the
`password` keyword's trailing double space. -/
def dhT3 (a : Authenticator) (suffix : List Char) : List Char :=
  '\t' :: ("password".data ++ (' ' :: (' ' :: (a.password.data ++ ('\n' :: suffix)))))

/-- …after the `login` line. -/
def dhT2 (a : Authenticator) (suffix : List Char) : List Char :=
  '\t' :: ("account".data ++ (' ' :: (' ' :: (a.account.data ++ ('\n' :: dhT3 a suffix)))))

/-- …after the host name's newline. -/
def dhT1 (a : Authenticator) (suffix : List Char) : List Char :=
  '\t' :: ("login".data ++ (' ' :: (a.login.data ++ ('\n' :: dhT2 a suffix))))

/-- The character stream of one serialized host entry. -/
def dhT0 (hst : String) (a : Authenticator) (suffix : List Char) : List Char :=
  "machine".data ++ (' ' :: (hst.data ++ ('\n' :: dhT1 a suffix)))

/-- Plainness of every host-table entry of a document. -/
def hostsPlain (hs : List (String × Authenticator)) : Prop :=
  ∀ p ∈ hs, plainS p.1 ∧ plainS p.2.login ∧ plainS p.2.account ∧ plainS p.2.password

instance (hs : List (String × Authenticator)) : Decidable (hostsPlain hs) := by
  unfold hostsPlain; infer_instance

/-- Credential produced by a block's attribute list. -/
def credOf (b : String × List (String × String)) : Authenticator :=
  b.2.foldl applyAttr Authenticator.default

/-- Store one block's entry into a host table. -/
def insHost (t : List (String × Authenticator)) (b : String × List (String × String)) :
    List (String × Authenticator) :=
  insertAssoc b.1 (credOf b) t

/-- Association-list lookup (indexing the modelled `HashMap`). -/
def lookupA (h : String) : List (String × α) → Option α
  | [] => none
  | (k, v) :: t => if h = k then some v else lookupA h t

/-- The credential of the last block in the list declaring host `h`. -/
def lastCred (h : String) : List (String × List (String × String)) → Option Authenticator
  | [] => none
  | b :: bs =>
    match lastCred h bs with
    | some c => some c
    | none => if b.1 = h then some (credOf b) else none

/-- Loop iterations a block list costs the parser. -/
def stepsOf (bs : List (String × List (String × String))) : Nat :=
  (bs.map fun b => b.2.length + 2).sum

/-- Well-formed block list: plain host names, recognized attribute
keywords, plain values. -/
def blocksOk (bs : List (String × List (String × String))) : Prop :=
  ∀ b ∈ bs, plainS b.1 ∧ attrsOk b.2

instance (bs : List (String × List (String × String))) : Decidable (blocksOk bs) := by
  unfold blocksOk; infer_instance

/-- Newline-terminated lines, as a single character stream. -/
def renderLines : List (List Char) → List Char
  | [] => []
  | l :: ls => l ++ ('\n' :: renderLines ls)


/-! ## Tokenizer lemmas

Case equations for the three scanning loops, then the behaviour of a
whole scan on a plain token. -/

theorem quotedLoop_nil (n : Nat) (acc : List Char) : quotedLoop n acc [] = (acc, n, []) := by
  rw [quotedLoop.eq_def]

theorem quotedLoop_close (n : Nat) (acc cs : List Char) :
    quotedLoop n acc ('"' :: cs) = (acc, n, cs) := by
  rw [quotedLoop.eq_def]; simp

theorem quotedLoop_esc_cons (n : Nat) (acc : List Char) (d : Char) (ds : List Char) :
    quotedLoop n acc ('\\' :: d :: ds) = quotedLoop (bump n d) (acc ++ [d]) ds := by
  rw [quotedLoop.eq_def]; simp

theorem quotedLoop_esc_nil (n : Nat) (acc : List Char) :
    quotedLoop n acc ['\\'] = (acc ++ [' '], n, []) := by
  rw [quotedLoop.eq_def]; simp

theorem quotedLoop_other (n : Nat) (acc : List Char) (c : Char) (cs : List Char)
    (h1 : c ≠ '"') (h2 : c ≠ '\\') :
    quotedLoop n acc (c :: cs) = quotedLoop (bump n c) (acc ++ [c]) cs := by
  rw [quotedLoop.eq_def]; simp [h1, h2]

theorem unquotedLoop_nil (n : Nat) (acc : List Char) : unquotedLoop n acc [] = (acc, n, []) := by
  rw [unquotedLoop.eq_def]

theorem unquotedLoop_ws (n : Nat) (acc : List Char) (c : Char) (cs : List Char)
    (hc : isWs c = true) : unquotedLoop n acc (c :: cs) = (acc, bump n c, cs) := by
  rw [unquotedLoop.eq_def]; simp [hc]

theorem unquotedLoop_esc_cons (n : Nat) (acc : List Char) (d : Char) (ds : List Char) :
    unquotedLoop n acc ('\\' :: d :: ds) = unquotedLoop (bump n d) (acc ++ [d]) ds := by
  rw [unquotedLoop.eq_def]; simp [isWs]

theorem unquotedLoop_esc_nil (n : Nat) (acc : List Char) :
    unquotedLoop n acc ['\\'] = (acc ++ [' '], n, []) := by
  rw [unquotedLoop.eq_def]; simp [isWs]

theorem unquotedLoop_other (n : Nat) (acc : List Char) (c : Char) (cs : List Char)
    (h1 : isWs c = false) (h2 : c ≠ '\\') :
    unquotedLoop n acc (c :: cs) = unquotedLoop n (acc ++ [c]) cs := by
  rw [unquotedLoop.eq_def]; simp [h1, h2]

theorem tokenLoop_nil (n : Nat) : tokenLoop n [] = ([], n, []) := by
  rw [tokenLoop.eq_def]

theorem tokenLoop_ws (n : Nat) (c : Char) (cs : List Char) (hc : isWs c = true) :
    tokenLoop n (c :: cs) = tokenLoop (bump n c) cs := by
  rw [tokenLoop.eq_def]; simp [hc]

theorem tokenLoop_quote (n : Nat) (cs : List Char) :
    tokenLoop n ('"' :: cs) = quotedLoop n [] cs := by
  rw [tokenLoop.eq_def]; simp [isWs]

theorem tokenLoop_esc_cons (n : Nat) (d : Char) (ds : List Char) :
    tokenLoop n ('\\' :: d :: ds) = unquotedLoop (bump n d) [d] ds := by
  rw [tokenLoop.eq_def]; simp [isWs]

theorem tokenLoop_esc_nil (n : Nat) : tokenLoop n ['\\'] = ([' '], n, []) := by
  rw [tokenLoop.eq_def]; simp [isWs]

theorem tokenLoop_other (n : Nat) (c : Char) (cs : List Char)
    (h1 : isWs c = false) (h2 : c ≠ '"') (h3 : c ≠ '\\') :
    tokenLoop n (c :: cs) = unquotedLoop n [c] cs := by
  rw [tokenLoop.eq_def]; simp [h1, h2, h3]

theorem unquotedLoop_plain_app (t : List Char) (h : ∀ c ∈ t, plainChar c)
    (w : Char) (hw : isWs w = true) (n : Nat) (acc rest : List Char) :
    unquotedLoop n acc (t ++ w :: rest) = (acc ++ t, bump n w, rest) := by
  induction t generalizing acc with
  | nil => simp [unquotedLoop_ws _ _ _ _ hw]
  | cons c t ih =>
    obtain ⟨h1, h2, h3⟩ := h c (by simp)
    rw [List.cons_append, unquotedLoop_other _ _ _ _ h1 h2,
      ih (fun c hc => h c (by simp [hc]))]
    simp

theorem unquotedLoop_plain_eof (t : List Char) (h : ∀ c ∈ t, plainChar c)
    (n : Nat) (acc : List Char) :
    unquotedLoop n acc t = (acc ++ t, n, []) := by
  induction t generalizing acc with
  | nil => simp [unquotedLoop_nil]
  | cons c t ih =>
    obtain ⟨h1, h2, h3⟩ := h c (by simp)
    rw [unquotedLoop_other _ _ _ _ h1 h2, ih (fun c hc => h c (by simp [hc]))]
    simp

theorem tokenLoop_wsSkip (l : List Char) (hl : wsOnly l) (n : Nat) (cs : List Char) :
    tokenLoop n (l ++ cs) = tokenLoop (bumps n l) cs := by
  induction l generalizing n with
  | nil => simp [bumps]
  | cons c l ih =>
    rw [List.cons_append, tokenLoop_ws n c _ (hl c (by simp)),
      ih (fun c hc => hl c (by simp [hc]))]
    simp [bumps]

theorem tokenLoop_plain_app (t : List Char) (ht : t ≠ []) (h : ∀ c ∈ t, plainChar c)
    (w : Char) (hw : isWs w = true) (n : Nat) (rest : List Char) :
    tokenLoop n (t ++ w :: rest) = (t, bump n w, rest) := by
  match t, ht with
  | c :: t, _ =>
    obtain ⟨h1, h2, h3⟩ := h c (by simp)
    rw [List.cons_append, tokenLoop_other _ _ _ h1 h3 h2,
      unquotedLoop_plain_app t (fun c hc => h c (by simp [hc])) w hw]
    simp

theorem tokenLoop_plain_eof (t : List Char) (ht : t ≠ []) (h : ∀ c ∈ t, plainChar c)
    (n : Nat) : tokenLoop n t = (t, n, []) := by
  match t, ht with
  | c :: t, _ =>
    obtain ⟨h1, h2, h3⟩ := h c (by simp)
    rw [tokenLoop_other _ _ _ h1 h3 h2,
      unquotedLoop_plain_eof t (fun c hc => h c (by simp [hc]))]
    simp

theorem tokenLoop_wsOnly (l : List Char) (hl : wsOnly l) (n : Nat) :
    tokenLoop n l = ([], bumps n l, []) := by
  have h := tokenLoop_wsSkip l hl n []
  rw [List.append_nil] at h
  rw [h, tokenLoop_nil]

theorem get_token_pop (n : Nat) (cs : List Char) (t : String) (ts : List String) :
    Lex.get_token ⟨n, cs, t :: ts⟩ = (t, ⟨n, cs, ts⟩) := rfl

theorem get_token_scan (n : Nat) (cs : List Char) :
    Lex.get_token ⟨n, cs, []⟩ =
      ((tokenLoop n cs).1.asString, ⟨(tokenLoop n cs).2.1, (tokenLoop n cs).2.2, []⟩) := rfl

theorem asString_data (s : String) : s.data.asString = s := rfl

theorem data_ne_nil (t : String) (ht : t ≠ "") : t.data ≠ [] := by
  intro hd
  exact ht (String.ext (by simpa using hd))

/-- Scanning a plain token preceded by whitespace and ended by a
whitespace terminator. -/
theorem get_token_plain_app (l : List Char) (hl : wsOnly l) (t : String) (ht : plainS t)
    (w : Char) (hw : isWs w = true) (n : Nat) (rest : List Char) :
    Lex.get_token ⟨n, l ++ (t.data ++ w :: rest), []⟩ = (t, ⟨bump (bumps n l) w, rest, []⟩) := by
  rw [get_token_scan, tokenLoop_wsSkip l hl,
    tokenLoop_plain_app t.data (data_ne_nil t ht.1) ht.2 w hw, asString_data]

/-- Scanning a plain token preceded by whitespace and ended by the
end of input. -/
theorem get_token_plain_eof (l : List Char) (hl : wsOnly l) (t : String) (ht : plainS t)
    (n : Nat) : Lex.get_token ⟨n, l ++ t.data, []⟩ = (t, ⟨bumps n l, [], []⟩) := by
  rw [get_token_scan, tokenLoop_wsSkip l hl,
    tokenLoop_plain_eof t.data (data_ne_nil t ht.1) ht.2, asString_data]

/-- Scanning whitespace-only input yields the empty token. -/
theorem get_token_wsOnly (l : List Char) (hl : wsOnly l) (n : Nat) :
    Lex.get_token ⟨n, l, []⟩ = ("", ⟨bumps n l, [], []⟩) := by
  rw [get_token_scan, tokenLoop_wsOnly l hl]
  rfl

theorem readLineAux_app (l : List Char) (h : '\n' ∉ l) (rest : List Char) :
    readLineAux (l ++ '\n' :: rest) = (l, rest) := by
  induction l with
  | nil => simp [readLineAux]
  | cons c cs ih =>
    rw [List.cons_append, readLineAux, if_neg (by rintro rfl; exact h (by simp)),
      ih (fun hc => h (by simp [hc]))]

theorem readLineAux_eof (l : List Char) (h : '\n' ∉ l) : readLineAux l = (l, []) := by
  induction l with
  | nil => rfl
  | cons c cs ih =>
    rw [readLineAux, if_neg (by rintro rfl; exact h (by simp)),
      ih (fun hc => h (by simp [hc]))]

theorem dropWhile_isRustWs_plain (l : List Char) (h : ∀ c ∈ l, plainRustChar c) :
    l.dropWhile isRustWs = l := by
  cases l with
  | nil => rfl
  | cons c cs => rw [List.dropWhile_cons_of_neg (by simp [(h c (by simp)).1])]

/-- A line free of Unicode whitespace is unchanged by trimming. -/
theorem trimL_plain (l : List Char) (h : ∀ c ∈ l, plainRustChar c) : trimL l = l := by
  unfold trimL
  rw [dropWhile_isRustWs_plain l h,
    dropWhile_isRustWs_plain l.reverse (fun c hc => h c (List.mem_reverse.1 hc)),
    List.reverse_reverse]

/-! ## Parser step lemmas

One loop iteration of `parseTopF` / `parseAttrsF` at a time, each
conditioned on what `get_token` returns. -/

theorem parseTopF_emptyTok (f : Nat) (res : Netrc) (lx : Lex)
    (h : lx.get_token.1 = "") : parseTopF (f + 1) res lx = some (.ok res) := by
  rw [parseTopF]
  simp [h]

theorem parseTopF_step_machine (f : Nat) (res : Netrc) (lx lx1 lx2 : Lex) (name : String)
    (h : lx.get_token = ("machine", lx1)) (h2 : lx1.get_token = (name, lx2))
    (hname : name ≠ "") :
    parseTopF (f + 1) res lx = parseAttrsF f res name Authenticator.default lx2 := by
  rw [parseTopF]
  simp [h, h2, hname]

theorem parseTopF_step_default (f : Nat) (res : Netrc) (lx lx1 : Lex)
    (h : lx.get_token = ("default", lx1)) :
    parseTopF (f + 1) res lx = parseAttrsF f res "default" Authenticator.default lx1 := by
  rw [parseTopF]
  simp [h]

theorem parseTopF_step_macdef (f : Nat) (res : Netrc) (lx lx1 lx2 : Lex) (name : String)
    (h : lx.get_token = ("macdef", lx1)) (h2 : lx1.get_token = (name, lx2)) :
    parseTopF (f + 1) res lx =
      parseTopF f
        { res with macros :=
            insertAssoc name (macroLinesF (lx2.instream.length + 1) lx2.instream).1 res.macros }
        { lx2 with instream := (macroLinesF (lx2.instream.length + 1) lx2.instream).2 } := by
  rw [parseTopF]
  simp [h, h2]

theorem parseAttrsF_step_attr (f : Nat) (res : Netrc) (e : String) (auth : Authenticator)
    (lx lx1 lx2 : Lex) (kw v : String)
    (h : lx.get_token = (kw, lx1)) (hkw : isAttrKw kw) (h2 : lx1.get_token = (v, lx2)) :
    parseAttrsF (f + 1) res e auth lx = parseAttrsF f res e (applyAttr auth (kw, v)) lx2 := by
  rw [parseAttrsF]
  rcases hkw with hk | hk | hk | hk <;> subst hk <;> simp [h, h2, applyAttr]

theorem parseAttrsF_step_break (f : Nat) (res : Netrc) (e : String) (auth : Authenticator)
    (lx lx1 : Lex) (tt : String)
    (h : lx.get_token = (tt, lx1))
    (htt : tt = "" ∨ tt = "machine" ∨ tt = "default" ∨ tt = "macdef") :
    parseAttrsF (f + 1) res e auth lx =
      parseTopF f { res with hosts := insertAssoc e auth res.hosts } (lx1.push_token tt) := by
  rw [parseAttrsF]
  rcases htt with hk | hk | hk | hk <;> subst hk <;> simp [h]

/-! ## Run lemmas

Whole-block behaviour on symbolic inputs built from plain values. -/

theorem get_token_plain_app0 (t : String) (ht : plainS t) (w : Char) (hw : isWs w = true)
    (n : Nat) (rest : List Char) :
    Lex.get_token ⟨n, t.data ++ w :: rest, []⟩ = (t, ⟨bump n w, rest, []⟩) := by
  have h := get_token_plain_app [] (by intro c hc; cases hc) t ht w hw n rest
  simpa [bumps] using h

theorem bump_space (n : Nat) : bump n ' ' = n := rfl

theorem bump_nl (n : Nat) : bump n '\n' = n + 1 := rfl

theorem attrKw_plain (k : String) (hk : isAttrKw k) : plainS k := by
  rcases hk with h | h | h | h <;> subst h <;> decide

/-- Consuming a rendered attribute list inside the attribute loop:
one loop iteration (hence one unit of fuel) per attribute; the
credential accumulates left to right. -/
theorem parseAttrsF_runAttrs (attrs : List (String × String)) (hok : attrsOk attrs)
    (f : Nat) (res : Netrc) (e : String) (auth : Authenticator) (n : Nat)
    (suffix : List Char) :
    parseAttrsF (attrs.length + f) res e auth ⟨n, renderAttrs attrs suffix, []⟩ =
      parseAttrsF f res e (attrs.foldl applyAttr auth) ⟨n, suffix, []⟩ := by
  induction attrs generalizing auth with
  | nil => simp [renderAttrs]
  | cons p rest ih =>
    obtain ⟨hkw, hv⟩ := hok p (by simp)
    have hstep : (p :: rest).length + f = (rest.length + f) + 1 := by
      simp [List.length_cons]; omega
    rw [hstep, renderAttrs]
    rw [parseAttrsF_step_attr _ _ _ _ _ _ _ p.1 p.2
      (get_token_plain_app0 p.1 (attrKw_plain p.1 hkw) ' ' rfl n _) hkw
      (get_token_plain_app0 p.2 hv ' ' rfl n _)]
    simp only [bump_space]
    rw [ih (fun q hq => hok q (by simp [hq]))]
    simp

/-- End of input inside the attribute loop: the entry is stored and
the empty token, replayed through the pushback queue, ends the parse. -/
theorem parseAttrsF_end_eof (f : Nat) (res : Netrc) (e : String) (auth : Authenticator)
    (n : Nat) :
    parseAttrsF (f + 2) res e auth ⟨n, [], []⟩ =
      some (.ok { res with hosts := insertAssoc e auth res.hosts }) := by
  rw [show f + 2 = (f + 1) + 1 from rfl,
    parseAttrsF_step_break _ _ _ _ _ ⟨n, [], []⟩ ""
      (get_token_wsOnly [] (by intro c hc; cases hc) n) (by left; rfl)]
  exact parseTopF_emptyTok f _ _ rfl

/-- A following `machine` keyword inside the attribute loop: the entry
is stored and the keyword is pushed back for the outer loop. -/
theorem parseAttrsF_end_machine (f : Nat) (res : Netrc) (e : String) (auth : Authenticator)
    (n : Nat) (rest : List Char) :
    parseAttrsF (f + 1) res e auth ⟨n, "machine".data ++ ' ' :: rest, []⟩ =
      parseTopF f { res with hosts := insertAssoc e auth res.hosts } ⟨n, rest, ["machine"]⟩ := by
  rw [parseAttrsF_step_break _ _ _ _ _ _ "machine"
    (get_token_plain_app0 "machine" (by decide) ' ' rfl n rest) (by simp)]
  rfl

/-- The outer loop replaying a pushed-back `machine` keyword: it pops
the keyword, reads the host name and enters the attribute loop. -/
theorem parseTopF_pop_machine (f : Nat) (res : Netrc) (name : String) (hname : plainS name)
    (n : Nat) (rest : List Char) :
    parseTopF (f + 1) res ⟨n, name.data ++ ' ' :: rest, ["machine"]⟩ =
      parseAttrsF f res name Authenticator.default ⟨n, rest, []⟩ := by
  rw [parseTopF_step_machine _ _ _ _ _ name (get_token_pop _ _ _ _)
    (get_token_plain_app0 name hname ' ' rfl n rest) hname.1]
  rfl

/-- The outer loop reading a fresh `machine` block header. -/
theorem parseTopF_machine_fresh (f : Nat) (res : Netrc) (name : String) (hname : plainS name)
    (attrs : List (String × String)) (n : Nat) (suffix : List Char) :
    parseTopF (f + 1) res ⟨n, renderMachine name attrs suffix, []⟩ =
      parseAttrsF f res name Authenticator.default ⟨n, renderAttrs attrs suffix, []⟩ := by
  rw [renderMachine, parseTopF_step_machine _ _ _ _ _ name
    (get_token_plain_app0 "machine" (by decide) ' ' rfl n _)
    (get_token_plain_app0 name hname ' ' rfl n _) hname.1]
  rfl

/-- The outer loop reading a fresh `default` block header. -/
theorem parseTopF_default_fresh (f : Nat) (res : Netrc)
    (attrs : List (String × String)) (n : Nat) (suffix : List Char) :
    parseTopF (f + 1) res ⟨n, renderDefault attrs suffix, []⟩ =
      parseAttrsF f res "default" Authenticator.default ⟨n, renderAttrs attrs suffix, []⟩ := by
  rw [renderDefault, parseTopF_step_default _ _ _ _
    (get_token_plain_app0 "default" (by decide) ' ' rfl n _)]
  rfl

/-- A single `machine` block followed by end of input. -/
theorem machine_block_run (name : String) (hname : plainS name)
    (attrs : List (String × String)) (hok : attrsOk attrs) (f : Nat) (res : Netrc) (n : Nat) :
    parseTopF (f + (attrs.length + 3)) res ⟨n, renderMachine name attrs [], []⟩ =
      some (.ok { res with
        hosts := insertAssoc name (attrs.foldl applyAttr Authenticator.default) res.hosts }) := by
  rw [show f + (attrs.length + 3) = (attrs.length + (f + 2)) + 1 by omega,
    parseTopF_machine_fresh _ _ name hname attrs n [],
    parseAttrsF_runAttrs attrs hok _ _ _ _ n [],
    parseAttrsF_end_eof]

/-- A single `default` block followed by end of input. -/
theorem default_block_run (attrs : List (String × String)) (hok : attrsOk attrs)
    (f : Nat) (res : Netrc) (n : Nat) :
    parseTopF (f + (attrs.length + 3)) res ⟨n, renderDefault attrs [], []⟩ =
      some (.ok { res with
        hosts := insertAssoc "default" (attrs.foldl applyAttr Authenticator.default) res.hosts }) := by
  rw [show f + (attrs.length + 3) = (attrs.length + (f + 2)) + 1 by omega,
    parseTopF_default_fresh _ _ attrs n [],
    parseAttrsF_runAttrs attrs hok _ _ _ _ n [],
    parseAttrsF_end_eof]

/-- Discharging the fuel of `from_str` against a run lemma. -/
theorem from_str_of_run (s : String) (k : Nat) (hk : k ≤ 2 * s.length + 8)
    (r : Except ParsingError Netrc)
    (h : ∀ f, parseTopF (f + k) Netrc.default (Lex.new s) = some r) :
    from_str s = r := by
  unfold from_str
  obtain ⟨f, hf⟩ : ∃ f, 2 * s.length + 8 = f + k := ⟨2 * s.length + 8 - k, by omega⟩
  rw [hf, h f]
  rfl

theorem data_asString (l : List Char) : (l.asString).data = l := rfl

theorem length_asString (l : List Char) : (l.asString).length = l.length := rfl

theorem renderAttrs_length (attrs : List (String × String)) (suffix : List Char) :
    attrs.length + suffix.length ≤ (renderAttrs attrs suffix).length := by
  induction attrs with
  | nil => simp [renderAttrs]
  | cons p rest ih => simp only [renderAttrs, List.length_append, List.length_cons]; omega

theorem parseAttrsF_step_hash_sameline (f : Nat) (res : Netrc) (e : String)
    (auth : Authenticator) (lx lx1 : Lex) (tt : String)
    (h : lx.get_token = (tt, lx1)) (hh : tt.data.head? = some '#')
    (hline : lx1.lineno = lx.lineno) :
    parseAttrsF (f + 1) res e auth lx = parseAttrsF f res e auth (lx1.read_line).2 := by
  rw [parseAttrsF]
  simp [h, hh, hline]

theorem parseAttrsF_step_hash_otherline (f : Nat) (res : Netrc) (e : String)
    (auth : Authenticator) (lx lx1 : Lex) (tt : String)
    (h : lx.get_token = (tt, lx1)) (hh : tt.data.head? = some '#')
    (hline : lx1.lineno ≠ lx.lineno) :
    parseAttrsF (f + 1) res e auth lx = parseAttrsF f res e auth lx1 := by
  rw [parseAttrsF]
  simp [h, hh, hline]

theorem applyAttr_comm (x y : String × String) (hx : isAttrKw x.1) (hy : isAttrKw y.1)
    (hf : fieldOf x.1 ≠ fieldOf y.1) (z : Authenticator) :
    applyAttr (applyAttr z x) y = applyAttr (applyAttr z y) x := by
  obtain ⟨x1, x2⟩ := x
  obtain ⟨y1, y2⟩ := y
  simp only at hx hy hf
  rcases hx with h | h | h | h <;> subst h <;> rcases hy with g | g | g | g <;> subst g <;>
    first
      | exact absurd rfl hf
      | simp [applyAttr]

theorem foldl_applyAttr_login (attrs : List (String × String))
    (h : ∀ p ∈ attrs, p.1 ≠ "login" ∧ p.1 ≠ "user") (auth : Authenticator) :
    (attrs.foldl applyAttr auth).login = auth.login := by
  induction attrs generalizing auth with
  | nil => rfl
  | cons p rest ih =>
    obtain ⟨h1, h2⟩ := h p (by simp)
    rw [List.foldl_cons, ih (fun q hq => h q (by simp [hq]))]
    by_cases hc : p.1 = "account" <;> simp [applyAttr, h1, h2, hc]

theorem foldl_applyAttr_account (attrs : List (String × String))
    (h : ∀ p ∈ attrs, p.1 ≠ "account") (auth : Authenticator) :
    (attrs.foldl applyAttr auth).account = auth.account := by
  induction attrs generalizing auth with
  | nil => rfl
  | cons p rest ih =>
    have h1 := h p (by simp)
    rw [List.foldl_cons, ih (fun q hq => h q (by simp [hq]))]
    by_cases hc : p.1 = "login" ∨ p.1 = "user" <;> simp [applyAttr, h1, hc]

theorem foldl_applyAttr_password (attrs : List (String × String)) (hok : attrsOk attrs)
    (h : ∀ p ∈ attrs, p.1 ≠ "password") (auth : Authenticator) :
    (attrs.foldl applyAttr auth).password = auth.password := by
  induction attrs generalizing auth with
  | nil => rfl
  | cons p rest ih =>
    have h1 := h p (by simp)
    have hkw := (hok p (by simp)).1
    rw [List.foldl_cons,
      ih (fun q hq => hok q (by simp [hq])) (fun q hq => h q (by simp [hq]))]
    rcases hkw with g | g | g | g <;> simp [applyAttr, g] at h1 ⊢

/-- A whole `machine` block alone in the input. -/
theorem from_str_machine_block (name : String) (hname : plainS name)
    (attrs : List (String × String)) (hok : attrsOk attrs) :
    from_str ((renderMachine name attrs []).asString)
      = .ok ⟨[(name, attrs.foldl applyAttr Authenticator.default)], []⟩ := by
  apply from_str_of_run _ (attrs.length + 3) ?hk _ ?hrun
  case hrun => exact fun f => machine_block_run name hname attrs hok f Netrc.default 1
  case hk =>
    have h1 := renderAttrs_length attrs []
    rw [length_asString]
    simp only [renderMachine, List.length_append, List.length_cons, List.length_nil] at *
    omega

/-- A whole `default` block alone in the input. -/
theorem from_str_default_block (attrs : List (String × String)) (hok : attrsOk attrs) :
    from_str ((renderDefault attrs []).asString)
      = .ok ⟨[("default", attrs.foldl applyAttr Authenticator.default)], []⟩ := by
  apply from_str_of_run _ (attrs.length + 3) ?hk _ ?hrun
  case hrun => exact fun f => default_block_run attrs hok f Netrc.default 1
  case hk =>
    have h1 := renderAttrs_length attrs []
    rw [length_asString]
    simp only [renderDefault, List.length_append, List.length_cons, List.length_nil] at *
    omega

/-! ## The claims -/

/-- C1: parsing the two-entry example input succeeds and yields
exactly the entry `host.domain.com ↦ (log1, acct1, pass1)` and the
entry `default ↦ (log2, acct2, pass2)`, no other hosts, no macros. -/
theorem claim_C1_concrete_two_entry_parse :
    from_str "machine host.domain.com login log1 password pass1 account acct1\ndefault login log2 password pass2 account acct2\n" =
      .ok ⟨[("host.domain.com", ⟨"log1", "acct1", "pass1"⟩),
            ("default", ⟨"log2", "acct2", "pass2"⟩)], []⟩ := by
  decide

/-- C9: in the tokenizer a backslash escapes the immediately following
character into the token literally, both in quoted and in unquoted
scanning (also at the very start of a token), and a backslash at end
of input contributes a literal space. -/
theorem claim_C9_backslash_escape :
    (∀ (n : Nat) (acc : List Char) (c : Char) (cs : List Char),
        quotedLoop n acc ('\\' :: c :: cs) = quotedLoop (bump n c) (acc ++ [c]) cs)
  ∧ (∀ (n : Nat) (acc : List Char) (c : Char) (cs : List Char),
        unquotedLoop n acc ('\\' :: c :: cs) = unquotedLoop (bump n c) (acc ++ [c]) cs)
  ∧ (∀ (n : Nat) (c : Char) (cs : List Char),
        tokenLoop n ('\\' :: c :: cs) = unquotedLoop (bump n c) [c] cs)
  ∧ (∀ (n : Nat) (acc : List Char), quotedLoop n acc ['\\'] = (acc ++ [' '], n, []))
  ∧ (∀ (n : Nat) (acc : List Char), unquotedLoop n acc ['\\'] = (acc ++ [' '], n, []))
  ∧ (∀ n : Nat, tokenLoop n ['\\'] = ([' '], n, [])) :=
  ⟨quotedLoop_esc_cons, unquotedLoop_esc_cons, tokenLoop_esc_cons,
   quotedLoop_esc_nil, unquotedLoop_esc_nil, tokenLoop_esc_nil⟩

/-- C10: when the input ends right after the `macdef` keyword
(possibly followed by whitespace only), the macro-name token is empty,
yet `from_str` succeeds and records the macro `"" ↦ []`. -/
theorem claim_C10_macdef_empty_name (l : List Char) (hl : wsOnly l) :
    from_str (("macdef".data ++ l).asString) = .ok ⟨[], [("", [])]⟩ := by
  apply from_str_of_run _ 2 (by omega) _ ?_
  intro f
  show parseTopF (f + 2) Netrc.default ⟨1, "macdef".data ++ l, []⟩ =
    some (.ok ⟨[], [("", [])]⟩)
  rw [show f + 2 = (f + 1) + 1 from rfl]
  cases l with
  | nil =>
    rw [parseTopF_step_macdef _ _ ⟨1, "macdef".data ++ [], []⟩ ⟨1, [], []⟩ ⟨1, [], []⟩ ""
      (by decide) (by decide)]
    exact parseTopF_emptyTok f _ _ rfl
  | cons w l' =>
    have hw : isWs w = true := hl w (by simp)
    have hl' : wsOnly l' := fun c hc => hl c (by simp [hc])
    rw [parseTopF_step_macdef _ _ _ _ _ ""
      (get_token_plain_app0 "macdef" (by decide) w hw 1 l')
      (get_token_wsOnly l' hl' (bump 1 w))]
    exact parseTopF_emptyTok f _ _ rfl

/-- C10 witness: concrete instance `"macdef\n"`. -/
theorem claim_C10_witness :
    from_str (("macdef".data ++ ['\n']).asString) = .ok ⟨[], [("", [])]⟩ :=
  claim_C10_macdef_empty_name ['\n'] (by decide)

/-- C6: a `machine` (or `default`) block carrying any sublist of the
attributes parses without error to the credential obtained by folding
the attributes over the all-empty default; every field not named by an
attribute stays the empty string. -/
theorem claim_C6_optional_attrs (name : String) (attrs : List (String × String))
    (hname : plainS name) (hok : attrsOk attrs) :
    (from_str ((renderMachine name attrs []).asString)
        = .ok ⟨[(name, attrs.foldl applyAttr Authenticator.default)], []⟩
      ∧ from_str ((renderDefault attrs []).asString)
        = .ok ⟨[("default", attrs.foldl applyAttr Authenticator.default)], []⟩)
  ∧ ((∀ p ∈ attrs, p.1 ≠ "login" ∧ p.1 ≠ "user") →
        (attrs.foldl applyAttr Authenticator.default).login = "")
  ∧ ((∀ p ∈ attrs, p.1 ≠ "account") →
        (attrs.foldl applyAttr Authenticator.default).account = "")
  ∧ ((∀ p ∈ attrs, p.1 ≠ "password") →
        (attrs.foldl applyAttr Authenticator.default).password = "") := by
  refine ⟨⟨from_str_machine_block name hname attrs hok, from_str_default_block attrs hok⟩,
    ?_, ?_, ?_⟩
  · exact fun h => foldl_applyAttr_login attrs h _
  · exact fun h => foldl_applyAttr_account attrs h _
  · exact fun h => foldl_applyAttr_password attrs hok h _

/-- C6 witness: a machine block with only a password attribute; login
and account come out empty. -/
theorem claim_C6_witness :
    (from_str ((renderMachine "h" [("password", "p")] []).asString)
        = .ok ⟨[("h", [("password", "p")].foldl applyAttr Authenticator.default)], []⟩
      ∧ from_str ((renderDefault [("password", "p")] []).asString)
        = .ok ⟨[("default", [("password", "p")].foldl applyAttr Authenticator.default)], []⟩)
  ∧ ((∀ p ∈ [("password", "p")], p.1 ≠ "login" ∧ p.1 ≠ "user") →
        ([("password", "p")].foldl applyAttr Authenticator.default).login = "")
  ∧ ((∀ p ∈ [("password", "p")], p.1 ≠ "account") →
        ([("password", "p")].foldl applyAttr Authenticator.default).account = "")
  ∧ ((∀ p ∈ [("password", "p")], p.1 ≠ "password") →
        ([("password", "p")].foldl applyAttr Authenticator.default).password = "") :=
  claim_C6_optional_attrs "h" [("password", "p")] (by decide) (by decide)

/-- C5: within one `machine` (or `default`) block, attribute pairs
targeting pairwise distinct credential fields can be permuted without
changing the parsed credential. -/
theorem claim_C5_attr_order (name : String) (a1 a2 : List (String × String))
    (hname : plainS name) (h1 : attrsOk a1) (hperm : a1.Perm a2)
    (hnodup : (a1.map fun p => fieldOf p.1).Nodup) :
    from_str ((renderMachine name a1 []).asString)
        = .ok ⟨[(name, a1.foldl applyAttr Authenticator.default)], []⟩
  ∧ from_str ((renderMachine name a2 []).asString)
        = .ok ⟨[(name, a1.foldl applyAttr Authenticator.default)], []⟩
  ∧ from_str ((renderDefault a1 []).asString)
        = .ok ⟨[("default", a1.foldl applyAttr Authenticator.default)], []⟩
  ∧ from_str ((renderDefault a2 []).asString)
        = .ok ⟨[("default", a1.foldl applyAttr Authenticator.default)], []⟩ := by
  have h2 : attrsOk a2 := fun p hp => h1 p (hperm.mem_iff.2 hp)
  have hcomm : ∀ x ∈ a1, ∀ y ∈ a1, ∀ z,
      applyAttr (applyAttr z x) y = applyAttr (applyAttr z y) x := by
    intro x hx y hy z
    by_cases hf : fieldOf x.1 = fieldOf y.1
    · have hxy : x = y := List.inj_on_of_nodup_map hnodup hx hy hf
      rw [hxy]
    · exact applyAttr_comm x y (h1 x hx).1 (h1 y hy).1 hf z
  have hfold : a1.foldl applyAttr Authenticator.default
      = a2.foldl applyAttr Authenticator.default := hperm.foldl_eq' hcomm _
  refine ⟨from_str_machine_block name hname a1 h1, ?_,
    from_str_default_block a1 h1, ?_⟩
  · rw [hfold]
    exact from_str_machine_block name hname a2 h2
  · rw [hfold]
    exact from_str_default_block a2 h2

/-- C5 witness: swapping `login` and `password` attributes of one
machine/default block leaves the credential unchanged. -/
theorem claim_C5_witness :
    from_str ((renderMachine "h" [("login", "a"), ("password", "b")] []).asString)
        = .ok ⟨[("h", [("login", "a"), ("password", "b")].foldl applyAttr
            Authenticator.default)], []⟩
  ∧ from_str ((renderMachine "h" [("password", "b"), ("login", "a")] []).asString)
        = .ok ⟨[("h", [("login", "a"), ("password", "b")].foldl applyAttr
            Authenticator.default)], []⟩
  ∧ from_str ((renderDefault [("login", "a"), ("password", "b")] []).asString)
        = .ok ⟨[("default", [("login", "a"), ("password", "b")].foldl applyAttr
            Authenticator.default)], []⟩
  ∧ from_str ((renderDefault [("password", "b"), ("login", "a")] []).asString)
        = .ok ⟨[("default", [("login", "a"), ("password", "b")].foldl applyAttr
            Authenticator.default)], []⟩ :=
  claim_C5_attr_order "h" [("login", "a"), ("password", "b")]
    [("password", "b"), ("login", "a")] (by decide) (by decide) (by decide) (by decide)

/-- C3 counterexample: in the attribute loop, the multi-character
token `#x` read without crossing a newline DOES discard the rest of
the line (`login b` is lost), so the host parses with an empty login —
not the `login = "b"` the claim's no-discard reading predicts. -/
theorem claim_C3_counterexample :
    from_str "machine h #x login b" = .ok ⟨[("h", ⟨"", "", ""⟩)], []⟩ ∧
    from_str "machine h #x login b" ≠ .ok ⟨[("h", ⟨"b", "", ""⟩)], []⟩ := by
  decide

/-- C3 (amended): in the attribute loop a token beginning with `'#'`
discards the rest of the current line whenever no newline was crossed
while obtaining it — regardless of the token's length (the
single-character restriction applies only at top level); when a
newline was crossed, nothing is discarded and the loop continues. -/
theorem claim_C3_attr_hash_discard (f : Nat) (res : Netrc) (e : String)
    (auth : Authenticator) (lx lx1 : Lex) (tt : String)
    (h : lx.get_token = (tt, lx1)) (hh : tt.data.head? = some '#') :
    (lx1.lineno = lx.lineno →
      parseAttrsF (f + 1) res e auth lx = parseAttrsF f res e auth (lx1.read_line).2)
  ∧ (lx1.lineno ≠ lx.lineno →
      parseAttrsF (f + 1) res e auth lx = parseAttrsF f res e auth lx1) :=
  ⟨fun hl => parseAttrsF_step_hash_sameline f res e auth lx lx1 tt h hh hl,
   fun hl => parseAttrsF_step_hash_otherline f res e auth lx lx1 tt h hh hl⟩

/-! ### Line numbers and error shapes (C4) -/

theorem le_bump (n : Nat) (c : Char) : n ≤ bump n c := by
  unfold bump; split <;> omega

theorem quotedLoop_lineno_le (n : Nat) (acc cs : List Char) :
    n ≤ (quotedLoop n acc cs).2.1 := by
  induction n, acc, cs using quotedLoop.induct with
  | case1 n acc => simp [quotedLoop_nil]
  | case2 n acc cs => simp [quotedLoop_close]
  | case3 n acc h => simp [quotedLoop_esc_nil]
  | case4 n acc c cs h ih =>
    rw [quotedLoop_esc_cons]
    exact le_trans (le_bump n c) ih
  | case5 n acc c cs h1 h2 ih =>
    rw [quotedLoop_other n acc c cs h1 h2]
    exact le_trans (le_bump n c) ih

theorem unquotedLoop_lineno_le (n : Nat) (acc cs : List Char) :
    n ≤ (unquotedLoop n acc cs).2.1 := by
  induction n, acc, cs using unquotedLoop.induct with
  | case1 n acc => simp [unquotedLoop_nil]
  | case2 n acc c cs h => simp [unquotedLoop_ws n acc c cs h, le_bump]
  | case3 n acc h => simp [unquotedLoop_esc_nil]
  | case4 n acc c cs h ih =>
    rw [unquotedLoop_esc_cons]
    exact le_trans (le_bump n c) ih
  | case5 n acc c cs h1 h2 ih =>
    rw [unquotedLoop_other n acc c cs (by simpa using h1) h2]
    exact ih

theorem tokenLoop_lineno_le (n : Nat) (cs : List Char) :
    n ≤ (tokenLoop n cs).2.1 := by
  induction n, cs using tokenLoop.induct with
  | case1 n => simp [tokenLoop_nil]
  | case2 n c cs h ih =>
    rw [tokenLoop_ws n c cs h]
    exact le_trans (le_bump n c) ih
  | case3 n cs h => rw [tokenLoop_quote]; exact quotedLoop_lineno_le n [] cs
  | case4 n h1 h2 => simp [tokenLoop_esc_nil]
  | case5 n c cs h1 h2 =>
    rw [tokenLoop_esc_cons]
    exact le_trans (le_bump n c) (unquotedLoop_lineno_le _ [c] cs)
  | case6 n c cs h1 h2 h3 =>
    rw [tokenLoop_other n c cs (by simpa using h1) h2 h3]
    exact unquotedLoop_lineno_le n [c] cs

/-- `get_token` never decreases the line counter. -/
theorem get_token_lineno_le (lx : Lex) : lx.lineno ≤ (lx.get_token).2.lineno := by
  obtain ⟨n, cs, ts⟩ := lx
  cases ts with
  | nil => exact tokenLoop_lineno_le n cs
  | cons t ts => exact le_refl n

/-- Both parser loops only ever construct errors of shape
`errShape`, provided the incoming line counter is at least 1. -/
theorem parse_error_inv (f : Nat) :
    (∀ (res : Netrc) (lx : Lex) (e : ParsingError), 1 ≤ lx.lineno →
        parseTopF f res lx = some (.error e) → errShape e)
  ∧ (∀ (res : Netrc) (en : String) (auth : Authenticator) (lx : Lex) (e : ParsingError),
        1 ≤ lx.lineno → parseAttrsF f res en auth lx = some (.error e) → errShape e) := by
  induction f with
  | zero =>
    constructor
    · intro res lx e _ h
      rw [show parseTopF 0 res lx = none from rfl] at h
      cases h
    · intro res en auth lx e _ h
      rw [show parseAttrsF 0 res en auth lx = none from rfl] at h
      cases h
  | succ f ih =>
    obtain ⟨ihT, ihA⟩ := ih
    constructor
    · intro res lx e hln h
      have hg1 : 1 ≤ (lx.get_token.2).lineno := le_trans hln (get_token_lineno_le lx)
      have hg2 : 1 ≤ ((lx.get_token.2).get_token.2).lineno :=
        le_trans hg1 (get_token_lineno_le _)
      rw [parseTopF] at h
      split_ifs at h with h1 h2 h3 h4 h5 h6 h7
      · cases h
      · refine ihT _ _ _ ?_ h
        exact hg1
      · refine ihT _ _ _ ?_ h
        exact hg1
      · by_cases h9 : lx.get_token.2.get_token.1 = ""
        · rw [if_pos h9] at h
          obtain rfl := Except.error.inj (Option.some.inj h)
          exact ⟨⟨lx.get_token.1, by simp⟩, hg2⟩
        · rw [if_neg h9] at h
          refine ihA _ _ _ _ _ ?_ h
          exact hg2
      · exact absurd h6 (by decide)
      · refine ihA _ _ _ _ _ ?_ h
        exact hg1
      · refine ihT _ _ _ ?_ h
        exact hg2
      · obtain rfl := Except.error.inj (Option.some.inj h)
        exact ⟨⟨lx.get_token.1, by simp⟩, hg1⟩
    · intro res en auth lx e hln h
      have hg1 : 1 ≤ (lx.get_token.2).lineno := le_trans hln (get_token_lineno_le lx)
      have hg2 : 1 ≤ ((lx.get_token.2).get_token.2).lineno :=
        le_trans hg1 (get_token_lineno_le _)
      rw [parseAttrsF] at h
      split_ifs at h with h1 h2 h3 h4 h5 h6
      · refine ihA _ _ _ _ _ ?_ h
        exact hg1
      · refine ihA _ _ _ _ _ ?_ h
        exact hg1
      · refine ihT _ _ _ ?_ h
        exact hg1
      · refine ihA _ _ _ _ _ ?_ h
        exact hg2
      · refine ihA _ _ _ _ _ ?_ h
        exact hg2
      · refine ihA _ _ _ _ _ ?_ h
        exact hg2
      · obtain rfl := Except.error.inj (Option.some.inj h)
        exact ⟨⟨lx.get_token.1, by simp⟩, hg1⟩

/-- One macro-body loop execution: lines whose trim is non-empty are
collected trimmed, in order, stopping at the first line that is empty
after trimming.  One unit of fuel per collected line. -/
theorem macroLinesF_run (pre : List (List Char))
    (hpre : ∀ l ∈ pre, '\n' ∉ l ∧ trimL l ≠ []) (u : List Char)
    (hu : trimL u = []) (hnl : '\n' ∉ u) (rest : List Char) (f : Nat) :
    macroLinesF (pre.length + (f + 1)) (renderLines pre ++ (u ++ '\n' :: rest))
      = (pre.map fun l => (trimL l).asString, rest) := by
  induction pre with
  | nil =>
    rw [List.length_nil, Nat.zero_add, renderLines, List.nil_append, macroLinesF]
    simp only [readLineAux_app u hnl rest, hu]
    simp
  | cons l pre ih =>
    rw [show (l :: pre).length + (f + 1) = (pre.length + (f + 1)) + 1 by simp; omega]
    obtain ⟨hl1, hl2⟩ := hpre l (by simp)
    rw [renderLines, List.append_assoc, List.cons_append, macroLinesF]
    simp only [readLineAux_app l hl1 _, hl2, if_neg, ite_false]
    rw [ih (fun q hq => hpre q (by simp [hq]))]
    simp

/-- The macro-body loop at end of input: all remaining lines are
collected. -/
theorem macroLinesF_run_eof (pre : List (List Char))
    (hpre : ∀ l ∈ pre, '\n' ∉ l ∧ trimL l ≠ []) (f : Nat) :
    macroLinesF (pre.length + (f + 1)) (renderLines pre)
      = (pre.map fun l => (trimL l).asString, []) := by
  induction pre with
  | nil =>
    rw [List.length_nil, Nat.zero_add, renderLines, macroLinesF]
    simp [readLineAux, trimL]
  | cons l pre ih =>
    rw [show (l :: pre).length + (f + 1) = (pre.length + (f + 1)) + 1 by simp; omega]
    obtain ⟨hl1, hl2⟩ := hpre l (by simp)
    rw [renderLines, macroLinesF]
    simp only [readLineAux_app l hl1 _, hl2, if_neg, ite_false]
    rw [ih (fun q hq => hpre q (by simp [hq]))]
    simp


/-! ### Round-tripping `Display` output (C2) -/

theorem displayHost_data (hst : String) (a : Authenticator) (hacc : ¬a.account = "")
    (suffix : List Char) :
    (displayHost hst a).data ++ suffix = dhT0 hst a suffix := by
  simp only [displayHost, if_neg hacc, dhT0, dhT1, dhT2, dhT3, String.data_append,
    List.append_assoc]
  rfl

/-- One serialized host entry consumed from inside the attribute loop
of the previous entry: the pending entry is stored, the new host's
credential is rebuilt field by field.  Five loop iterations. -/
theorem displayHost_attrStep (hst : String) (a : Authenticator) (hh : plainS hst)
    (hl : plainS a.login) (hacc : plainS a.account) (hp : plainS a.password)
    (f : Nat) (res : Netrc) (e : String) (auth : Authenticator) (n : Nat)
    (suffix : List Char) :
    parseAttrsF (f + 5) res e auth ⟨n, (displayHost hst a).data ++ suffix, []⟩
      = parseAttrsF f { res with hosts := insertAssoc e auth res.hosts } hst a
          ⟨n + 4, suffix, []⟩ := by
  rw [show (⟨n, (displayHost hst a).data ++ suffix, []⟩ : Lex)
      = ⟨n, dhT0 hst a suffix, []⟩ from by rw [displayHost_data hst a hacc.1]]
  rw [show f + 5 = ((((f + 1) + 1) + 1) + 1) + 1 from rfl]
  rw [parseAttrsF_step_break _ _ _ _ _ _ "machine"
    (show Lex.get_token ⟨n, dhT0 hst a suffix, []⟩
        = ("machine", ⟨n, hst.data ++ ('\n' :: dhT1 a suffix), []⟩) from
      get_token_plain_app0 "machine" (by decide) ' ' (by decide) n _) (by simp)]
  rw [parseTopF_step_machine _ _ _ _ _ hst
    (show (Lex.push_token ⟨n, hst.data ++ ('\n' :: dhT1 a suffix), []⟩ "machine").get_token
        = ("machine", ⟨n, hst.data ++ ('\n' :: dhT1 a suffix), []⟩) from rfl)
    (show Lex.get_token ⟨n, hst.data ++ ('\n' :: dhT1 a suffix), []⟩
        = (hst, ⟨n + 1, dhT1 a suffix, []⟩) from
      get_token_plain_app0 hst hh '\n' (by decide) n _) hh.1]
  rw [parseAttrsF_step_attr _ _ _ _ _ _ _ "login" a.login
    (show Lex.get_token ⟨n + 1, dhT1 a suffix, []⟩
        = ("login", ⟨n + 1, a.login.data ++ ('\n' :: dhT2 a suffix), []⟩) from
      get_token_plain_app ['\t'] (by decide) "login" (by decide) ' ' (by decide) (n + 1) _)
    (by decide)
    (show Lex.get_token ⟨n + 1, a.login.data ++ ('\n' :: dhT2 a suffix), []⟩
        = (a.login, ⟨n + 2, dhT2 a suffix, []⟩) from
      get_token_plain_app0 a.login hl '\n' (by decide) (n + 1) _)]
  rw [parseAttrsF_step_attr _ _ _ _ _ _ _ "account" a.account
    (show Lex.get_token ⟨n + 2, dhT2 a suffix, []⟩
        = ("account", ⟨n + 2, ' ' :: (a.account.data ++ ('\n' :: dhT3 a suffix)), []⟩) from
      get_token_plain_app ['\t'] (by decide) "account" (by decide) ' ' (by decide) (n + 2) _)
    (by decide)
    (show Lex.get_token ⟨n + 2, ' ' :: (a.account.data ++ ('\n' :: dhT3 a suffix)), []⟩
        = (a.account, ⟨n + 3, dhT3 a suffix, []⟩) from
      get_token_plain_app [' '] (by decide) a.account hacc '\n' (by decide) (n + 2) _)]
  rw [parseAttrsF_step_attr _ _ _ _ _ _ _ "password" a.password
    (show Lex.get_token ⟨n + 3, dhT3 a suffix, []⟩
        = ("password", ⟨n + 3, ' ' :: (a.password.data ++ ('\n' :: suffix)), []⟩) from
      get_token_plain_app ['\t'] (by decide) "password" (by decide) ' ' (by decide) (n + 3) _)
    (by decide)
    (show Lex.get_token ⟨n + 3, ' ' :: (a.password.data ++ ('\n' :: suffix)), []⟩
        = (a.password, ⟨n + 4, suffix, []⟩) from
      get_token_plain_app [' '] (by decide) a.password hp '\n' (by decide) (n + 3) _)]
  rfl

/-- One serialized host entry consumed from the top level. -/
theorem displayHost_freshStep (hst : String) (a : Authenticator) (hh : plainS hst)
    (hl : plainS a.login) (hacc : plainS a.account) (hp : plainS a.password)
    (f : Nat) (res : Netrc) (n : Nat) (suffix : List Char) :
    parseTopF (f + 4) res ⟨n, (displayHost hst a).data ++ suffix, []⟩
      = parseAttrsF f res hst a ⟨n + 4, suffix, []⟩ := by
  rw [show (⟨n, (displayHost hst a).data ++ suffix, []⟩ : Lex)
      = ⟨n, dhT0 hst a suffix, []⟩ from by rw [displayHost_data hst a hacc.1]]
  rw [show f + 4 = (((f + 1) + 1) + 1) + 1 from rfl]
  rw [parseTopF_step_machine _ _ _ _ _ hst
    (show Lex.get_token ⟨n, dhT0 hst a suffix, []⟩
        = ("machine", ⟨n, hst.data ++ ('\n' :: dhT1 a suffix), []⟩) from
      get_token_plain_app0 "machine" (by decide) ' ' (by decide) n _)
    (show Lex.get_token ⟨n, hst.data ++ ('\n' :: dhT1 a suffix), []⟩
        = (hst, ⟨n + 1, dhT1 a suffix, []⟩) from
      get_token_plain_app0 hst hh '\n' (by decide) n _) hh.1]
  rw [parseAttrsF_step_attr _ _ _ _ _ _ _ "login" a.login
    (show Lex.get_token ⟨n + 1, dhT1 a suffix, []⟩
        = ("login", ⟨n + 1, a.login.data ++ ('\n' :: dhT2 a suffix), []⟩) from
      get_token_plain_app ['\t'] (by decide) "login" (by decide) ' ' (by decide) (n + 1) _)
    (by decide)
    (show Lex.get_token ⟨n + 1, a.login.data ++ ('\n' :: dhT2 a suffix), []⟩
        = (a.login, ⟨n + 2, dhT2 a suffix, []⟩) from
      get_token_plain_app0 a.login hl '\n' (by decide) (n + 1) _)]
  rw [parseAttrsF_step_attr _ _ _ _ _ _ _ "account" a.account
    (show Lex.get_token ⟨n + 2, dhT2 a suffix, []⟩
        = ("account", ⟨n + 2, ' ' :: (a.account.data ++ ('\n' :: dhT3 a suffix)), []⟩) from
      get_token_plain_app ['\t'] (by decide) "account" (by decide) ' ' (by decide) (n + 2) _)
    (by decide)
    (show Lex.get_token ⟨n + 2, ' ' :: (a.account.data ++ ('\n' :: dhT3 a suffix)), []⟩
        = (a.account, ⟨n + 3, dhT3 a suffix, []⟩) from
      get_token_plain_app [' '] (by decide) a.account hacc '\n' (by decide) (n + 2) _)]
  rw [parseAttrsF_step_attr _ _ _ _ _ _ _ "password" a.password
    (show Lex.get_token ⟨n + 3, dhT3 a suffix, []⟩
        = ("password", ⟨n + 3, ' ' :: (a.password.data ++ ('\n' :: suffix)), []⟩) from
      get_token_plain_app ['\t'] (by decide) "password" (by decide) ' ' (by decide) (n + 3) _)
    (by decide)
    (show Lex.get_token ⟨n + 3, ' ' :: (a.password.data ++ ('\n' :: suffix)), []⟩
        = (a.password, ⟨n + 4, suffix, []⟩) from
      get_token_plain_app [' '] (by decide) a.password hp '\n' (by decide) (n + 3) _)]
  rfl

/-- Consuming a serialized host list from inside the attribute loop:
the pending entry and all but the last serialized entry are stored,
the last serialized entry (or the pending one) stays pending. -/
theorem hostsText_run (hs : List (String × Authenticator)) (hok : hostsPlain hs) :
    ∀ (f : Nat) (res : Netrc) (e : String) (auth : Authenticator) (n : Nat)
      (suffix : List Char),
    parseAttrsF (5 * hs.length + f) res e auth ⟨n, (hostsText hs).data ++ suffix, []⟩
      = parseAttrsF f
          { res with hosts :=
              ((e, auth) :: hs).dropLast.foldl (fun t p => insertAssoc p.1 p.2 t) res.hosts }
          (hs.getLastD (e, auth)).1 (hs.getLastD (e, auth)).2
          ⟨n + 4 * hs.length, suffix, []⟩ := by
  induction hs with
  | nil =>
    intro f res e auth n suffix
    show parseAttrsF (5 * 0 + f) res e auth ⟨n, "".data ++ suffix, []⟩ = _
    rw [show ("".data ++ suffix : List Char) = suffix from rfl]
    simp [List.getLastD]
  | cons p hs ih =>
    intro f res e auth n suffix
    obtain ⟨h1, h2, h3, h4⟩ := hok p (by simp)
    rw [show (5 * (p :: hs).length + f) = (5 * hs.length + f) + 5 by
        simp [List.length_cons]; omega,
      show ((hostsText (p :: hs)).data ++ suffix : List Char)
        = (displayHost p.1 p.2).data ++ ((hostsText hs).data ++ suffix) by
        rw [hostsText, String.data_append, List.append_assoc],
      displayHost_attrStep p.1 p.2 h1 h2 h3 h4,
      ih (fun q hq => hok q (by simp [hq]))]
    have hlast : ((p :: hs).getLastD (e, auth)) = hs.getLastD p := by
      rw [List.getLastD_cons]
    have hdrop : ((e, auth) :: p :: hs).dropLast = (e, auth) :: (p :: hs).dropLast := by
      rfl
    rw [hlast, hdrop]
    have harith : n + 4 + 4 * hs.length = n + 4 * (p :: hs).length := by
      simp [List.length_cons]; omega
    rw [harith]
    rfl

/-- Serialized macro-body lines are exactly `renderLines` of the lines'
character lists. -/
theorem macroLinesText_data (lines : List String) :
    (macroLinesText lines).data = renderLines (lines.map String.data) := by
  induction lines with
  | nil => rfl
  | cons l ls ih =>
    rw [macroLinesText, List.map_cons, renderLines, String.data_append, String.data_append,
      ← ih, List.append_assoc]
    rfl

theorem renderLines_length (ls : List (List Char)) : ls.length ≤ (renderLines ls).length := by
  induction ls with
  | nil => simp [renderLines]
  | cons l ls ih => simp only [renderLines, List.length_append, List.length_cons]; omega

/-- Evaluating the macro-body loop on serialized plain lines: all
lines are recovered, trimmed to themselves, and the input is fully
consumed. -/
theorem macroLinesF_displayed (lines : List String) (hlines : ∀ l ∈ lines, plainRustS l) :
    macroLinesF ((renderLines (lines.map String.data)).length + 1)
        (renderLines (lines.map String.data)) = (lines, []) := by
  obtain ⟨g, hg⟩ : ∃ g, (renderLines (lines.map String.data)).length + 1
      = (lines.map String.data).length + (g + 1) := by
    have h := renderLines_length (lines.map String.data)
    exact ⟨(renderLines (lines.map String.data)).length - lines.length, by
      simp only [List.length_map] at *; omega⟩
  rw [hg, macroLinesF_run_eof (lines.map String.data) ?hpre g]
  case hpre =>
    intro l hl
    obtain ⟨s, hs, rfl⟩ := List.mem_map.1 hl
    have hp := hlines s hs
    constructor
    · intro hnl
      exact absurd (hp.2 '\n' hnl).1 (by decide)
    · rw [trimL_plain _ hp.2]
      exact data_ne_nil s hp.1
  congr 1
  rw [List.map_map]
  have : ∀ s ∈ lines, ((fun l => (trimL l).asString) ∘ String.data) s = id s := by
    intro s hs
    simp only [Function.comp_apply, id_eq]
    rw [trimL_plain _ (hlines s hs).2]
    rfl
  rw [List.map_congr_left this, List.map_id]

theorem data_empty : ("" : String).data = [] := rfl

theorem macrosText_one_data (m : String) (lines : List String) :
    (macrosText [(m, lines)]).data
      = "macdef".data ++ (' ' :: (m.data ++ ('\n' :: renderLines (lines.map String.data)))) := by
  simp only [macrosText, displayMacro, String.data_append, macroLinesText_data,
    data_empty, List.append_nil, List.append_assoc]
  rfl

/-- A single serialized macro consumed from inside the attribute loop:
the pending entry is stored, the macro recorded, the input exhausted. -/
theorem macrosText_one_attrStep (m : String) (lines : List String) (hm : plainS m)
    (hlines : ∀ l ∈ lines, plainRustS l) (f : Nat) (res : Netrc) (e : String)
    (auth : Authenticator) (n : Nat) :
    parseAttrsF (f + 3) res e auth ⟨n, (macrosText [(m, lines)]).data, []⟩
      = some (.ok { res with hosts := insertAssoc e auth res.hosts,
                             macros := insertAssoc m lines res.macros }) := by
  rw [show (⟨n, (macrosText [(m, lines)]).data, []⟩ : Lex)
      = ⟨n, "macdef".data ++ (' ' :: (m.data ++ ('\n' :: renderLines (lines.map String.data)))), []⟩
      from by rw [macrosText_one_data]]
  rw [show f + 3 = ((f + 1) + 1) + 1 from rfl]
  rw [parseAttrsF_step_break _ _ _ _ _ _ "macdef"
    (show Lex.get_token ⟨n,
        "macdef".data ++ (' ' :: (m.data ++ ('\n' :: renderLines (lines.map String.data)))), []⟩
        = ("macdef", ⟨n, m.data ++ ('\n' :: renderLines (lines.map String.data)), []⟩) from
      get_token_plain_app0 "macdef" (by decide) ' ' (by decide) n _) (by simp)]
  rw [parseTopF_step_macdef _ _ _ _ _ m
    (show (Lex.push_token ⟨n, m.data ++ ('\n' :: renderLines (lines.map String.data)), []⟩
          "macdef").get_token
        = ("macdef", ⟨n, m.data ++ ('\n' :: renderLines (lines.map String.data)), []⟩) from rfl)
    (show Lex.get_token ⟨n, m.data ++ ('\n' :: renderLines (lines.map String.data)), []⟩
        = (m, ⟨n + 1, renderLines (lines.map String.data), []⟩) from
      get_token_plain_app0 m hm '\n' (by decide) n _)]
  rw [show (⟨n + 1, renderLines (lines.map String.data), []⟩ : Lex).instream
      = renderLines (lines.map String.data) from rfl]
  rw [macroLinesF_displayed lines hlines]
  exact parseTopF_emptyTok f _ _ rfl

/-- A single serialized macro consumed from the top level. -/
theorem macrosText_one_fresh (m : String) (lines : List String) (hm : plainS m)
    (hlines : ∀ l ∈ lines, plainRustS l) (f : Nat) (res : Netrc) (n : Nat) :
    parseTopF (f + 2) res ⟨n, (macrosText [(m, lines)]).data, []⟩
      = some (.ok { res with macros := insertAssoc m lines res.macros }) := by
  rw [show (⟨n, (macrosText [(m, lines)]).data, []⟩ : Lex)
      = ⟨n, "macdef".data ++ (' ' :: (m.data ++ ('\n' :: renderLines (lines.map String.data)))), []⟩
      from by rw [macrosText_one_data]]
  rw [show f + 2 = (f + 1) + 1 from rfl]
  rw [parseTopF_step_macdef _ _ _ _ _ m
    (show Lex.get_token ⟨n,
        "macdef".data ++ (' ' :: (m.data ++ ('\n' :: renderLines (lines.map String.data)))), []⟩
        = ("macdef", ⟨n, m.data ++ ('\n' :: renderLines (lines.map String.data)), []⟩) from
      get_token_plain_app0 "macdef" (by decide) ' ' (by decide) n _)
    (show Lex.get_token ⟨n, m.data ++ ('\n' :: renderLines (lines.map String.data)), []⟩
        = (m, ⟨n + 1, renderLines (lines.map String.data), []⟩) from
      get_token_plain_app0 m hm '\n' (by decide) n _)]
  rw [show (⟨n + 1, renderLines (lines.map String.data), []⟩ : Lex).instream
      = renderLines (lines.map String.data) from rfl]
  rw [macroLinesF_displayed lines hlines]
  exact parseTopF_emptyTok f _ _ rfl

theorem insertAssoc_notmem (k : String) (v : α) (t : List (String × α))
    (hk : ∀ q ∈ t, k ≠ q.1) : insertAssoc k v t = t ++ [(k, v)] := by
  induction t with
  | nil => rfl
  | cons q t ih =>
    rw [insertAssoc, if_neg (hk q (by simp)), ih (fun r hr => hk r (by simp [hr]))]
    rfl

theorem foldl_insert_self (ps : List (String × Authenticator)) :
    ∀ t0, (∀ p ∈ ps, ∀ q ∈ t0, p.1 ≠ q.1) → (ps.map Prod.fst).Nodup →
    ps.foldl (fun t p => insertAssoc p.1 p.2 t) t0 = t0 ++ ps := by
  induction ps with
  | nil => intro t0 _ _; simp
  | cons p ps ih =>
    intro t0 hdisj hnd
    rw [List.foldl_cons, insertAssoc_notmem p.1 p.2 t0 (hdisj p (by simp)),
      ih (t0 ++ [p]) ?disj ?nd]
    · simp
    case disj =>
      intro x hx q hq
      rcases List.mem_append.1 hq with hq | hq
      · exact hdisj x (by simp [hx]) q hq
      · rw [List.mem_singleton.1 hq]
        simp only [List.map_cons, List.nodup_cons] at hnd
        intro hxe
        exact hnd.1 (hxe ▸ List.mem_map_of_mem Prod.fst hx)
    case nd =>
      simp only [List.map_cons, List.nodup_cons] at hnd
      exact hnd.2

theorem dropLast_getLastD (ps : List (String × Authenticator)) :
    ∀ q, (q :: ps).dropLast ++ [ps.getLastD q] = q :: ps := by
  induction ps with
  | nil => intro q; rfl
  | cons r rs ih =>
    intro q
    rw [List.getLastD_cons, show (q :: r :: rs).dropLast = q :: (r :: rs).dropLast from rfl,
      List.cons_append, ih r]

/-- Re-inserting a no-duplicate host list entry by entry — all but the
last through the fold, the last separately — reproduces the list. -/
theorem rebuild_hosts (ps : List (String × Authenticator)) (q : String × Authenticator)
    (hnd : ((q :: ps).map Prod.fst).Nodup) :
    insertAssoc (ps.getLastD q).1 (ps.getLastD q).2
        ((q :: ps).dropLast.foldl (fun t p => insertAssoc p.1 p.2 t) [])
      = q :: ps := by
  have hsub : ((q :: ps).dropLast.map Prod.fst).Nodup :=
    List.Nodup.sublist ((List.dropLast_sublist (q :: ps)).map Prod.fst) hnd
  rw [foldl_insert_self ((q :: ps).dropLast) [] (by intro _ _ _ hq; cases hq) hsub,
    List.nil_append]
  have hlast : ¬∃ r ∈ (q :: ps).dropLast, (ps.getLastD q).1 = r.1 := by
    intro ⟨r, hr, hre⟩
    have hfull := dropLast_getLastD ps q
    have hnd2 : (((q :: ps).dropLast ++ [ps.getLastD q]).map Prod.fst).Nodup := by
      rw [hfull]; exact hnd
    rw [List.map_append, List.nodup_append] at hnd2
    exact hnd2.2.2 (List.mem_map_of_mem Prod.fst hr) (by simp [← hre])
  rw [insertAssoc_notmem _ _ _ (fun r hr hre => hlast ⟨r, hr, hre⟩), dropLast_getLastD]

theorem displayHost_length_ge (hst : String) (a : Authenticator) :
    5 ≤ (displayHost hst a).length := by
  have h8 : ("machine " : String).length = 8 := rfl
  by_cases hacc : a.account = "" <;>
    simp only [displayHost, hacc, ite_true, ite_false, String.length_append, h8] <;> omega

theorem hostsText_length_ge (hs : List (String × Authenticator)) :
    5 * hs.length ≤ (hostsText hs).length := by
  induction hs with
  | nil => simp [hostsText]
  | cons p hs ih =>
    have h := displayHost_length_ge p.1 p.2
    rw [hostsText, String.length_append]
    simp only [List.length_cons]
    omega

/-- C2 counterexample: with two macros, `Display` emits no blank line
between the macro bodies, so re-parsing folds the second `macdef`
header and body into the first macro's body: the round trip loses
macro `b`. -/
theorem claim_C2_counterexample :
    from_str (Netrc.display ⟨[], [("a", ["x"]), ("b", ["y"])]⟩)
      = .ok ⟨[], [("a", ["x", "macdef b", "y"])]⟩
  ∧ (⟨[], [("a", ["x", "macdef b", "y"])]⟩ : Netrc)
      ≠ (⟨[], [("a", ["x"]), ("b", ["y"])]⟩ : Netrc) := by
  decide

/-- C2 (amended): serializing a document whose host names, credential
fields and macro names are plain, whose macro lines are non-empty and
free of Unicode whitespace, backslash and quote, whose host keys are
distinct, and which contains AT MOST ONE macro, then re-parsing,
reproduces the document exactly.  (With two or more macros the
round trip fails, because the serializer terminates macro bodies with
no blank line.) -/
theorem claim_C2_roundtrip (doc : Netrc) (hhosts : hostsPlain doc.hosts)
    (hnd : (doc.hosts.map Prod.fst).Nodup)
    (hmac : ∀ q ∈ doc.macros, plainS q.1 ∧ ∀ l ∈ q.2, plainRustS l)
    (hm1 : doc.macros.length ≤ 1) :
    from_str doc.display = .ok doc := by
  obtain ⟨hs, ms⟩ := doc
  cases hs with
  | nil =>
    cases ms with
    | nil => decide
    | cons q ms' =>
      cases ms' with
      | nil =>
        obtain ⟨m, lines⟩ := q
        obtain ⟨hm, hlines⟩ := hmac (m, lines) (by simp)
        apply from_str_of_run _ 2 (by omega) _ ?_
        intro f
        show parseTopF (f + 2) Netrc.default ⟨1, (macrosText [(m, lines)]).data, []⟩
          = some (.ok ⟨[], [(m, lines)]⟩)
        exact macrosText_one_fresh m lines hm hlines f Netrc.default 1
      | cons q2 ms'' =>
        exfalso
        simp at hm1
  | cons p t =>
    obtain ⟨h1, h2, h3, h4⟩ := hhosts p (by simp)
    have hok' : hostsPlain t := fun r hr => hhosts r (by simp [hr])
    have hlen := hostsText_length_ge (p :: t)
    cases ms with
    | nil =>
      have hd : (Netrc.display ⟨p :: t, []⟩).data
          = (displayHost p.1 p.2).data
            ++ ((hostsText t).data ++ (macrosText []).data) := by
        simp only [Netrc.display, hostsText, String.data_append, List.append_assoc]
      apply from_str_of_run _ (4 + (5 * t.length + 2)) ?hk _ ?hrun
      case hk =>
        have hle : (Netrc.display ⟨p :: t, []⟩).length
            = (hostsText (p :: t)).length + (macrosText []).length :=
          String.length_append _ _
        simp only [List.length_cons] at hlen
        omega
      case hrun =>
        intro f
        rw [show Lex.new (Netrc.display ⟨p :: t, []⟩)
            = ⟨1, (Netrc.display ⟨p :: t, []⟩).data, []⟩ from rfl, hd,
          show f + (4 + (5 * t.length + 2)) = (f + (5 * t.length + 2)) + 4 by omega,
          displayHost_freshStep p.1 p.2 h1 h2 h3 h4,
          show f + (5 * t.length + 2) = 5 * t.length + (f + 2) by omega,
          hostsText_run t hok',
          show ((macrosText []).data : List Char) = [] from rfl,
          parseAttrsF_end_eof,
          show (Netrc.default.hosts : List (String × Authenticator)) = [] from rfl,
          show ((p.1, p.2) : String × Authenticator) = p from rfl,
          rebuild_hosts t p hnd]
        rfl
    | cons q ms' =>
      cases ms' with
      | cons q2 ms'' =>
        exfalso
        simp at hm1
      | nil =>
        obtain ⟨m, lines⟩ := q
        obtain ⟨hm, hlines⟩ := hmac (m, lines) (by simp)
        have hd : (Netrc.display ⟨p :: t, [(m, lines)]⟩).data
            = (displayHost p.1 p.2).data
              ++ ((hostsText t).data ++ (macrosText [(m, lines)]).data) := by
          simp only [Netrc.display, hostsText, String.data_append, List.append_assoc]
        apply from_str_of_run _ (4 + (5 * t.length + 3)) ?hk _ ?hrun
        case hk =>
          have hle : (Netrc.display ⟨p :: t, [(m, lines)]⟩).length
              = (hostsText (p :: t)).length + (macrosText [(m, lines)]).length :=
            String.length_append _ _
          simp only [List.length_cons] at hlen
          omega
        case hrun =>
          intro f
          rw [show Lex.new (Netrc.display ⟨p :: t, [(m, lines)]⟩)
              = ⟨1, (Netrc.display ⟨p :: t, [(m, lines)]⟩).data, []⟩ from rfl, hd,
            show f + (4 + (5 * t.length + 3)) = (f + (5 * t.length + 3)) + 4 by omega,
            displayHost_freshStep p.1 p.2 h1 h2 h3 h4,
            show f + (5 * t.length + 3) = 5 * t.length + (f + 3) by omega,
            hostsText_run t hok',
            macrosText_one_attrStep m lines hm hlines,
            show (Netrc.default.hosts : List (String × Authenticator)) = [] from rfl,
            show ((p.1, p.2) : String × Authenticator) = p from rfl,
            rebuild_hosts t p hnd]
          rfl

/-- C2 witness: a one-host, one-macro document round-trips. -/
theorem claim_C2_witness :
    from_str (Netrc.display ⟨[("h", ⟨"l", "ac", "pw"⟩)], [("m", ["x"])]⟩)
      = .ok ⟨[("h", ⟨"l", "ac", "pw"⟩)], [("m", ["x"])]⟩ :=
  claim_C2_roundtrip ⟨[("h", ⟨"l", "ac", "pw"⟩)], [("m", ["x"])]⟩
    (by decide) (by decide) (by decide) (by decide)

/-- C4 counterexample: the error's line number is NOT the line at
which the offending token was read.  In `"# \nbad tok"` the token
`bad` is read on line 2, but `read_line` (used to discard the comment)
bypasses the line counter, so the error reports line 1.  Conversely in
`"invalid\n"` the token `invalid` lies entirely on line 1, but its
terminating newline is consumed by the tokenizer, so the error reports
line 2. -/
theorem claim_C4_counterexample :
    from_str "# \nbad tok" = .error ⟨1, "bad toplevel token 'bad'"⟩ ∧
    from_str "invalid\n" = .error ⟨2, "bad toplevel token 'invalid'"⟩ := by
  decide

/-- C4 (amended): whenever `from_str` returns an error, the error
carries the tokenizer's line counter at the moment the error is raised
(1-based; newlines consumed through `read_line` while discarding
comments or macro bodies are not counted, and a newline that
terminated the offending token is), its message has one of the shapes
`bad toplevel token '<token>'`, `bad follower token '<token>'`,
`missing '<keyword>' name`, and it displays as
`parsing error: <message> (line <lineno>)`. -/
theorem claim_C4_error_shape (s : String) (e : ParsingError)
    (h : from_str s = .error e) :
    (∃ t, e.message = "bad toplevel token '" ++ t ++ "'"
        ∨ e.message = "bad follower token '" ++ t ++ "'"
        ∨ e.message = "missing '" ++ t ++ "' name")
  ∧ 1 ≤ e.lineno
  ∧ e.display = "parsing error: " ++ e.message ++ " (line " ++ toString e.lineno ++ ")" := by
  unfold from_str at h
  cases hp : parseTopF (2 * s.length + 8) Netrc.default (Lex.new s) with
  | none =>
    rw [hp] at h
    simp at h
  | some r =>
    rw [hp] at h
    simp only [Option.getD_some] at h
    subst h
    obtain ⟨h1, h2⟩ := (parse_error_inv (2 * s.length + 8)).1 Netrc.default (Lex.new s) e
      (le_refl 1) hp
    exact ⟨h1, h2, rfl⟩

/-- C4 witness: the error raised on `"invalid x"`. -/
theorem claim_C4_witness :
    (∃ t, (⟨1, "bad toplevel token 'invalid'"⟩ : ParsingError).message
          = "bad toplevel token '" ++ t ++ "'"
        ∨ (⟨1, "bad toplevel token 'invalid'"⟩ : ParsingError).message
          = "bad follower token '" ++ t ++ "'"
        ∨ (⟨1, "bad toplevel token 'invalid'"⟩ : ParsingError).message
          = "missing '" ++ t ++ "' name")
  ∧ 1 ≤ (⟨1, "bad toplevel token 'invalid'"⟩ : ParsingError).lineno
  ∧ (⟨1, "bad toplevel token 'invalid'"⟩ : ParsingError).display
      = "parsing error: " ++ (⟨1, "bad toplevel token 'invalid'"⟩ : ParsingError).message
        ++ " (line " ++ toString (⟨1, "bad toplevel token 'invalid'"⟩ : ParsingError).lineno
        ++ ")" :=
  claim_C4_error_shape "invalid x" ⟨1, "bad toplevel token 'invalid'"⟩ (by decide)

/-! ### Sequences of machine blocks (C8) -/

theorem lookupA_insertAssoc (h k : String) (v : α) (t : List (String × α)) :
    lookupA h (insertAssoc k v t) = if h = k then some v else lookupA h t := by
  induction t with
  | nil => rfl
  | cons p t ih =>
    obtain ⟨k', v'⟩ := p
    by_cases h1 : k = k'
    · subst h1
      by_cases h2 : h = k <;> simp [insertAssoc, lookupA, h2]
    · by_cases h2 : h = k'
      · subst h2
        have h1' : ¬h = k := fun hk => h1 hk.symm
        simp [insertAssoc, lookupA, h1, h1']
      · simp [insertAssoc, lookupA, h1, h2, ih]

theorem lookupA_foldl_none (h : String) (bs : List (String × List (String × String)))
    (hn : lastCred h bs = none) :
    ∀ t0, lookupA h (bs.foldl insHost t0) = lookupA h t0 := by
  induction bs with
  | nil => intro t0; rfl
  | cons b bs ih =>
    intro t0
    rw [lastCred] at hn
    cases hl : lastCred h bs with
    | some c => rw [hl] at hn; simp at hn
    | none =>
      rw [hl] at hn
      simp only [] at hn
      have hb : ¬b.1 = h := by
        intro hb
        rw [if_pos hb] at hn
        cases hn
      rw [List.foldl_cons, ih hl (insHost t0 b), insHost, lookupA_insertAssoc,
        if_neg (fun hx => hb hx.symm)]

theorem lookupA_foldl_some (h : String) (bs : List (String × List (String × String)))
    (c : Authenticator) (hs : lastCred h bs = some c) :
    ∀ t0, lookupA h (bs.foldl insHost t0) = some c := by
  induction bs generalizing c with
  | nil => cases hs
  | cons b bs ih =>
    intro t0
    rw [lastCred] at hs
    cases hl : lastCred h bs with
    | some c' =>
      rw [hl] at hs
      simp only [Option.some.injEq] at hs
      rw [List.foldl_cons, ih c' hl (insHost t0 b), hs]
    | none =>
      rw [hl] at hs
      simp only [] at hs
      have hb : b.1 = h := by
        by_cases hb : b.1 = h
        · exact hb
        · rw [if_neg hb] at hs; cases hs
      rw [if_pos hb, Option.some.injEq] at hs
      rw [List.foldl_cons, lookupA_foldl_none h bs hl (insHost t0 b), insHost,
        lookupA_insertAssoc, if_pos hb.symm, hs]

/-- Consuming a rendered block list from inside the attribute loop of
a preceding block: each block stores its entry over the previous
table. -/
theorem parseAttrsF_runBlocks (bs : List (String × List (String × String)))
    (hok : blocksOk bs) :
    ∀ (f : Nat) (res : Netrc) (e : String) (auth : Authenticator) (n : Nat),
    parseAttrsF (stepsOf bs + (f + 3)) res e auth ⟨n, renderMachines bs, []⟩
      = some (.ok { res with
          hosts := bs.foldl insHost (insertAssoc e auth res.hosts) }) := by
  induction bs with
  | nil =>
    intro f res e auth n
    rw [show stepsOf [] + (f + 3) = (f + 1) + 2 by simp [stepsOf],
      renderMachines, parseAttrsF_end_eof]
    rfl
  | cons b bs ih =>
    intro f res e auth n
    obtain ⟨hb1, hb2⟩ := hok b (by simp)
    rw [show stepsOf (b :: bs) + (f + 3)
        = ((b.2.length + (stepsOf bs + (f + 3))) + 1) + 1 by simp [stepsOf]; omega,
      renderMachines, renderMachine,
      parseAttrsF_end_machine _ _ _ _ _ _,
      parseTopF_pop_machine _ _ _ hb1,
      parseAttrsF_runAttrs b.2 hb2,
      ih (fun q hq => hok q (by simp [hq])) f _ _ _ n]
    simp [insHost, credOf]

/-- A non-empty rendered block list from the top level parses to the
fold of all its entries. -/
theorem parseTopF_runBlocks (b : String × List (String × String))
    (bs : List (String × List (String × String))) (hok : blocksOk (b :: bs))
    (f : Nat) (res : Netrc) (n : Nat) :
    parseTopF (stepsOf (b :: bs) + (f + 2)) res ⟨n, renderMachines (b :: bs), []⟩
      = some (.ok { res with hosts := (b :: bs).foldl insHost res.hosts }) := by
  obtain ⟨hb1, hb2⟩ := hok b (by simp)
  rw [show stepsOf (b :: bs) + (f + 2)
      = (b.2.length + (stepsOf bs + (f + 3))) + 1 by simp [stepsOf]; omega,
    renderMachines,
    parseTopF_machine_fresh _ _ b.1 hb1 b.2 n _,
    parseAttrsF_runAttrs b.2 hb2,
    parseAttrsF_runBlocks bs (fun q hq => hok q (by simp [hq])) _ _ _ _ n]
  simp [insHost, credOf]

theorem renderMachines_length (bs : List (String × List (String × String))) :
    stepsOf bs ≤ (renderMachines bs).length := by
  induction bs with
  | nil => simp [stepsOf, renderMachines]
  | cons b bs ih =>
    have h := renderAttrs_length b.2 (renderMachines bs)
    simp only [stepsOf, renderMachines, renderMachine, List.map_cons, List.sum_cons,
      List.length_append, List.length_cons] at *
    omega

/-- Any well-formed rendered block list parses to the fold of its
entries over the empty table. -/
theorem from_str_machines (bs : List (String × List (String × String)))
    (hok : blocksOk bs) :
    from_str ((renderMachines bs).asString) = .ok ⟨bs.foldl insHost [], []⟩ := by
  cases bs with
  | nil => decide
  | cons b bs =>
    apply from_str_of_run _ (stepsOf (b :: bs) + 2) ?hk _ ?hrun
    case hrun =>
      intro f
      rw [show f + (stepsOf (b :: bs) + 2) = stepsOf (b :: bs) + (f + 2) by omega]
      exact parseTopF_runBlocks b bs hok f Netrc.default 1
    case hk =>
      have h := renderMachines_length (b :: bs)
      rw [length_asString]
      omega

/-- C8: a sequence of machine blocks — duplicate host names allowed —
always parses successfully, and each host name is mapped to the
credential of the last block declaring it. -/
theorem claim_C8_duplicate_hosts (bs : List (String × List (String × String)))
    (hok : blocksOk bs) :
    ∃ t, from_str ((renderMachines bs).asString) = .ok ⟨t, []⟩ ∧
      ∀ h, lookupA h t = lastCred h bs := by
  refine ⟨bs.foldl insHost [], from_str_machines bs hok, fun h => ?_⟩
  cases hl : lastCred h bs with
  | some c => rw [lookupA_foldl_some h bs c hl []]
  | none => rw [lookupA_foldl_none h bs hl []]; rfl

/-- C8 witness: the host `h` declared twice; its entry is the second
block's credential. -/
theorem claim_C8_witness :
    ∃ t, from_str ((renderMachines
        [("h", [("login", "a")]), ("h", [("login", "b")])]).asString) = .ok ⟨t, []⟩ ∧
      ∀ g, lookupA g t = lastCred g [("h", [("login", "a")]), ("h", [("login", "b")])] :=
  claim_C8_duplicate_hosts [("h", [("login", "a")]), ("h", [("login", "b")])] (by decide)

/-! ### Macro bodies (C7) -/

/-- C7: a macro body is exactly the consecutive lines up to (and not
including) the first line that is empty after trimming — or up to end
of input — each stored trimmed, in original order; and the concrete
scenario from the spec. -/
theorem claim_C7_macro_body :
    (∀ (pre : List (List Char)) (u rest : List Char) (f : Nat),
        (∀ l ∈ pre, '\n' ∉ l ∧ trimL l ≠ []) → trimL u = [] → '\n' ∉ u →
        macroLinesF (pre.length + (f + 1)) (renderLines pre ++ (u ++ '\n' :: rest))
          = (pre.map fun l => (trimL l).asString, rest))
  ∧ (∀ (pre : List (List Char)) (f : Nat),
        (∀ l ∈ pre, '\n' ∉ l ∧ trimL l ≠ []) →
        macroLinesF (pre.length + (f + 1)) (renderLines pre)
          = (pre.map fun l => (trimL l).asString, []))
  ∧ from_str "macdef macro1\nline1\nline2\n\n"
      = .ok ⟨[], [("macro1", ["line1", "line2"])]⟩ := by
  refine ⟨?_, ?_, by decide⟩
  · intro pre u rest f hpre hu hnl
    exact macroLinesF_run pre hpre u hu hnl rest f
  · intro pre f hpre
    exact macroLinesF_run_eof pre hpre f

/-- C7 witness: two kept lines, a blank separator line, a remainder. -/
theorem claim_C7_witness :
    macroLinesF ([['a'], ['b', ' ', 'c']].length + (0 + 1))
        (renderLines [['a'], ['b', ' ', 'c']] ++ ([' '] ++ '\n' :: ['z']))
      = ([['a'], ['b', ' ', 'c']].map fun l => (trimL l).asString, ['z']) :=
  claim_C7_macro_body.1 [['a'], ['b', ' ', 'c']] [' '] ['z'] 0
    (by decide) (by decide) (by decide)

/-- C3 witness: the multi-character token `#xy`, read without crossing
a newline, discards the rest of the line. -/
theorem claim_C3_witness :
    ((⟨1, "r s".data, []⟩ : Lex).lineno = (⟨1, "#xy r s".data, []⟩ : Lex).lineno →
      parseAttrsF 1 Netrc.default "h" Authenticator.default ⟨1, "#xy r s".data, []⟩ =
        parseAttrsF 0 Netrc.default "h" Authenticator.default
          ((⟨1, "r s".data, []⟩ : Lex).read_line).2)
  ∧ ((⟨1, "r s".data, []⟩ : Lex).lineno ≠ (⟨1, "#xy r s".data, []⟩ : Lex).lineno →
      parseAttrsF 1 Netrc.default "h" Authenticator.default ⟨1, "#xy r s".data, []⟩ =
        parseAttrsF 0 Netrc.default "h" Authenticator.default ⟨1, "r s".data, []⟩) :=
  claim_C3_attr_hash_discard 0 Netrc.default "h" Authenticator.default
    ⟨1, "#xy r s".data, []⟩ ⟨1, "r s".data, []⟩ "#xy" (by decide) (by decide)

end NetrcModel
